import Mathlib

/-!
# Rift: content-addressed file history (`src/file_manager.cpp`)

A shallow embedding of the file-history manager: the SHA-256 hex rendering, the
Base64 codec, the two in-memory maps with their heap of version nodes, and the
save / load protocol for the two persisted JSON records.

Conventions of the embedding.
* `unsigned char` is `Byte = Fin 256`; `std::string` is `Str = List Byte`.
* `int` accumulators are `Int` values kept in the 32-bit two's-complement range
  by `wrap32` after every `<<` and `+`; `>>` is the arithmetic shift (floor
  division by a power of two) and `& 0x3F`, `& 0xFF` are `% 64`, `% 256`.
* `FileVersion*` is an address into `heap`; `new` allocates at the end of it.
  Dereferencing a pointer that is not the address of a node gives `none`.
* OpenSSL's `SHA256` is a parameter of `calculateFileHash` and of its callers.
* The working files are a read-only function `fs` from paths to contents; the
  two record files are a pair of JSON objects apart from them, and writing
  them succeeds.
* The walk `fs::recursive_directory_iterator(".")` is the list of its entries;
  the entry at `name` below the current directory has the path `./name`.
-/

namespace Rift

/-- An `unsigned char`. -/
abbrev Byte := Fin 256

/-- A `std::string`: a sequence of bytes. -/
abbrev Str := List Byte

/-! ## Machine integers -/

/-- Reduction of an integer to the range of a 32-bit `int` (two's complement). -/
def wrap32 (x : Int) : Int := (x + 2147483648) % 4294967296 - 2147483648

/-- The C expression `x << k` on `int`. -/
def shl32 (x : Int) (k : Nat) : Int := wrap32 (x * 2 ^ k)

/-- The C expression `x + y` on `int`. -/
def add32 (x y : Int) : Int := wrap32 (x + y)

/-- The C expression `x >> k` on `int`, for a shift count `k >= 0`
(arithmetic shift). -/
def shr32 (x : Int) (k : Int) : Int := x / 2 ^ k.toNat

/-! ## Base64 codec (`base64_encode`, `base64_decode`) -/

/-- The string `base64_chars`:
`"ABCDEFGHIJKLMNOPQRSTUVWXYZabcdefghijklmnopqrstuvwxyz0123456789+/"`. -/
def base64_chars : Str :=
  [65, 66, 67, 68, 69, 70, 71, 72, 73, 74, 75, 76, 77, 78, 79, 80, 81, 82, 83, 84, 85, 86, 87,
   88, 89, 90,
   97, 98, 99, 100, 101, 102, 103, 104, 105, 106, 107, 108, 109, 110, 111, 112, 113, 114, 115,
   116, 117, 118, 119, 120, 121, 122,
   48, 49, 50, 51, 52, 53, 54, 55, 56, 57,
   43, 47]

/-- The expression `base64_chars[i & 0x3F]`; the index is always below 64. -/
def charAt (i : Int) : Byte := base64_chars.getD (i % 64).toNat 0

/-- The character `'='`. -/
def padChar : Byte := 61

/-- The inner loop of `base64_encode`:
`while (valb >= 0) { encoded.push_back(base64_chars[(val >> valb) & 0x3F]); valb -= 6; }`.
The first argument bounds the number of iterations; `base64_encodeLoop` passes
`valb / 6 + 1`, which is exactly the number of iterations the loop makes. -/
def base64_encodeWhile : Nat → Int → Int → Str → Int × Str
  | 0, _, valb, encoded => (valb, encoded)
  | fuel + 1, val, valb, encoded =>
    if valb ≥ 0 then
      base64_encodeWhile fuel val (valb - 6) (encoded ++ [charAt (shr32 val valb)])
    else (valb, encoded)

/-- The `for (unsigned char c : data)` loop of `base64_encode`, from the state
`(val, valb, encoded)`. -/
def base64_encodeLoop : Str → Int → Int → Str → Int × Int × Str
  | [], val, valb, encoded => (val, valb, encoded)
  | c :: data, val, valb, encoded =>
    let val := add32 (shl32 val 8) (c.val : Int)
    let valb := valb + 8
    let r := base64_encodeWhile (valb.toNat / 6 + 1) val valb encoded
    base64_encodeLoop data val r.1 r.2

/-- The padding loop `while (encoded.size() % 4) encoded.push_back('=');`.
It makes at most three iterations, whatever the size is. -/
def base64_pad : Nat → Str → Str
  | 0, encoded => encoded
  | fuel + 1, encoded =>
    if encoded.length % 4 ≠ 0 then base64_pad fuel (encoded ++ [padChar]) else encoded

/-- The function `base64_encode`. -/
def base64_encode (data : Str) : Str :=
  let r := base64_encodeLoop data 0 (-6) []
  let val := r.1
  let valb := r.2.1
  let encoded := r.2.2
  let encoded :=
    if valb > -6 then encoded ++ [charAt (shr32 (shl32 val 8) (valb + 8))] else encoded
  base64_pad 3 encoded

/-- The table `T` of `base64_decode`: 256 entries `-1`, then
`for (int i = 0; i < 64; i++) T[base64_chars[i]] = i;`. -/
def base64_T : List Int :=
  (List.range 64).foldl (fun T i => T.set (base64_chars.getD i 0).val (i : Int))
    (List.replicate 256 (-1))

/-- The lookup `T[c]` for an `unsigned char c`. -/
def tableAt (c : Byte) : Int := base64_T.getD c.val (-1)

/-- The expression `char(x & 0xFF)`. -/
def toChar (x : Int) : Byte := Fin.ofNat (x % 256).toNat

/-- The `for (unsigned char c : encoded)` loop of `base64_decode`, from the
state `(val, valb, decoded)`; `break` leaves the loop with what was decoded. -/
def base64_decodeLoop : Str → Int → Int → Str → Str
  | [], _, _, decoded => decoded
  | c :: encoded, val, valb, decoded =>
    if tableAt c = -1 then decoded
    else
      let val := add32 (shl32 val 6) (tableAt c)
      let valb := valb + 6
      if valb ≥ 0 then
        base64_decodeLoop encoded val (valb - 8) (decoded ++ [toChar (shr32 val valb)])
      else
        base64_decodeLoop encoded val valb decoded

/-- The function `base64_decode`. -/
def base64_decode (encoded : Str) : Str := base64_decodeLoop encoded 0 (-8) []



/-! ### Names used in the proofs about the codec -/

/-- The Base64 character of a sextet given as a natural number. -/
def sextet (n : Nat) : Byte := base64_chars.getD n 0

/-- The accumulator after one more input byte of the encoder. -/
def encAcc (v : Int) (a : Byte) : Int := add32 (shl32 v 8) (a.val : Int)

/-- The accumulator after one more alphabet character of the decoder. -/
def decAcc (w : Int) (n : Nat) : Int := add32 (shl32 w 6) (n : Int)

/-- What `base64_encode` does after its `for` loop, as a function of the
loop's final state `(val, valb, encoded)`. -/
def encodeTail (r : Int × Int × Str) : Str :=
  base64_pad 3
    (if r.2.1 > -6 then r.2.2 ++ [charAt (shr32 (shl32 r.1 8) (r.2.1 + 8))] else r.2.2)

/-! ## Hashing (`calculateFileHash`) -/

/-- The array `unsigned char hash[SHA256_DIGEST_LENGTH]` after the call of
`SHA256`: 32 bytes. -/
abbrev Digest := { d : List Byte // d.length = 32 }

/-- A lowercase hexadecimal digit, for `d < 16`. -/
def hexDigit (d : Nat) : Byte := if d < 10 then Fin.ofNat (48 + d) else Fin.ofNat (87 + d)

/-- The text written by `hashStream << std::hex << (int)c` for `0 <= c <= 255`:
the value in lowercase hexadecimal, with no leading zero (no `setw`, no
`setfill` is in force on the stream). -/
def hexOfInt (n : Nat) : Str :=
  if n < 16 then [hexDigit n] else [hexDigit (n / 16), hexDigit (n % 16)]

/-- The rendering loop `for (unsigned char c : hash) hashStream << std::hex << (int)c;`
followed by `hashStream.str()`. -/
def hexRender (hash : List Byte) : Str :=
  hash.foldl (fun hashStream c => hashStream ++ hexOfInt c.val) []

/-- The function `calculateFileHash`. OpenSSL's `SHA256` is a parameter. -/
def calculateFileHash (SHA256 : Str → Digest) (content : Str) : Str :=
  hexRender (SHA256 content).val

/-- The sixteen lowercase hexadecimal digits `0123456789abcdef`. -/
def hexDigits : Str := [48, 49, 50, 51, 52, 53, 54, 55, 56, 57, 97, 98, 99, 100, 101, 102]

/-! ## Files -/

/-- The function `readFileContent`; `fs filename = none` when the file cannot
be opened. -/
def readFileContent (fs : Str → Option Str) (filename : Str) : Str :=
  match fs filename with
  | none => []
  | some content => content

/-! ## The manager's state -/

/-- Modelled from the spec: the node type `FileVersion` is declared in
`include/file_manager.h`, which is not among the sources. A node holds a digest,
a link to the preceding (older) node and a link to the following (newer) node,
if any; `new FileVersion(h)` makes a node with digest `h` and no links. Links
are addresses into the heap, `none` is `nullptr`. -/
structure FileVersion where
  hash : Str
  prev : Option Nat
  next : Option Nat
deriving DecidableEq

/-- Modelled from the spec: the members of `FileHistoryManager` are declared in
`include/file_manager.h`, which is not among the sources. `fileHistoryMap` maps
a path to the tail node of its chain, `hashMap` maps a digest to content;
`heap` holds the nodes allocated by `new`, the address of a node being its
position. A map is a list of entries searched from the front. -/
structure FileHistoryManager where
  heap : List FileVersion
  fileHistoryMap : List (Str × Nat)
  hashMap : List (Str × Str)
deriving DecidableEq

/-- The call `m.find(k)`: the value stored under `k`, if any. -/
def mapFind {V : Type} : List (Str × V) → Str → Option V
  | [], _ => none
  | (k', v) :: m, k => if k' = k then some v else mapFind m k

/-- The assignment `m[k] = v`: the entry of `k` is overwritten, or created. -/
def mapAssign {V : Type} : List (Str × V) → Str → V → List (Str × V)
  | [], k, v => [(k, v)]
  | (k', v') :: m, k, v => if k' = k then (k, v) :: m else (k', v') :: mapAssign m k v

/-- A JSON object whose values are strings (`nlohmann::json`), as the list of
its entries. When `dump(4)` returns, parsing the text it wrote is taken to give
the same object back; an object never assigned to is `null` and lists no
entry. -/
abbrev Json := List (Str × Str)

/-- The comparison `a < b` of two `std::string`s: lexicographic, bytes compared
as unsigned, a proper prefix first. -/
def strLt : Str → Str → Bool
  | [], [] => false
  | [], _ :: _ => true
  | _ :: _, [] => false
  | a :: x, b :: y => if a < b then true else if b < a then false else strLt x y

/-- The assignment `j[k] = v` on a JSON object: the entry of `k` is overwritten,
or created at the place of `k` among the keys, which an object keeps in
increasing order (`std::map`). -/
def jsonAssign : Json → Str → Str → Json
  | [], k, v => [(k, v)]
  | (k', v') :: j, k, v =>
    if k' = k then (k, v) :: j
    else if strLt k k' then (k, v) :: (k', v') :: j
    else (k', v') :: jsonAssign j k v

/-- The keys of a JSON object are in increasing order. -/
def jsonSorted (j : Json) : Prop := (j.map Prod.fst).Pairwise (fun a b => strLt a b = true)

/-- The two record files `./data/.vcs/file_history.json` and
`./data/.vcs/hash_map.json`; `none` when the file is absent. -/
structure Disk where
  fileHistoryFile : Option Json
  hashMapFile : Option Json
deriving DecidableEq

/-- The scan that the serializer of `nlohmann::json` makes over the bytes of a
string it writes: `pending` bytes of the current character are still to come,
and the next byte has to lie between `lo` and `hi`. A first byte `00..7F` is a
character; `C2..DF` takes one more byte, `E0..EF` two and `F0..F4` three, all in
`80..BF`, except that the second byte is in `A0..BF` after `E0`, in `80..9F`
after `ED`, in `90..BF` after `F0` and in `80..8F` after `F4`. Every other byte
is rejected, and so is a string that ends inside a character. -/
def utf8Scan (pending lo hi : Nat) : Str → Bool
  | [] => pending == 0
  | a :: rest =>
    if pending = 0 then
      if a.val < 0x80 then utf8Scan 0 0x80 0xBF rest
      else if 0xC2 ≤ a.val ∧ a.val ≤ 0xDF then utf8Scan 1 0x80 0xBF rest
      else if a.val = 0xE0 then utf8Scan 2 0xA0 0xBF rest
      else if a.val = 0xED then utf8Scan 2 0x80 0x9F rest
      else if 0xE1 ≤ a.val ∧ a.val ≤ 0xEF then utf8Scan 2 0x80 0xBF rest
      else if a.val = 0xF0 then utf8Scan 3 0x90 0xBF rest
      else if 0xF1 ≤ a.val ∧ a.val ≤ 0xF3 then utf8Scan 3 0x80 0xBF rest
      else if a.val = 0xF4 then utf8Scan 3 0x80 0x8F rest
      else false
    else decide (lo ≤ a.val ∧ a.val ≤ hi) && utf8Scan (pending - 1) 0x80 0xBF rest

/-- The string is valid UTF-8. This is what the comment above `base64_encode`
refers to: JSON expects valid UTF-8 strings and crashes on other ones. -/
def validUtf8 (s : Str) : Bool := utf8Scan 0 0x80 0xBF s

/-- The call `j.dump(4)` returns: every key and every value of the object is
valid UTF-8. On any other object `dump` throws (`type_error.316`) and nothing is
written. -/
def dumps (j : Json) : Bool := j.all (fun e => validUtf8 e.1 && validUtf8 e.2)

/-- The manager before anything was recorded or loaded. -/
def emptyManager : FileHistoryManager := ⟨[], [], []⟩

/-- The expression `new FileVersion(h)`. -/
def newFileVersion (h : Str) : FileVersion := ⟨h, none, none⟩

/-- The first loop of `saveToDisk`: `fileHistoryJson[filename] = version->hash`
for every entry of `fileHistoryMap`; `none` when a `version` is not the address
of a node. -/
def saveHistoryJson (heap : List FileVersion) : List (Str × Nat) → Json → Option Json
  | [], fileHistoryJson => some fileHistoryJson
  | (filename, version) :: m, fileHistoryJson =>
    match heap[version]? with
    | none => none
    | some node => saveHistoryJson heap m (jsonAssign fileHistoryJson filename node.hash)

/-- The second loop of `saveToDisk`: `hashMapJson[hash] = content` for every
entry of `hashMap`. -/
def saveHashMapJson : List (Str × Str) → Json → Json
  | [], hashMapJson => hashMapJson
  | (hash, content) :: m, hashMapJson => saveHashMapJson m (jsonAssign hashMapJson hash content)

/-- The function `FileHistoryManager::saveToDisk`: both records are
overwritten. The result is `none` when the call does not return: a `version` is
not the address of a node, or `dump(4)` throws at line 108 or 109. Both files
were opened, hence emptied, at lines 105-106 before the first `dump`, so after a
throw the record files hold no pair of documents that could be read back. -/
def saveToDisk (s : FileHistoryManager) : Option Disk :=
  match saveHistoryJson s.heap s.fileHistoryMap [] with
  | none => none
  | some fileHistoryJson =>
    let hashMapJson := saveHashMapJson s.hashMap []
    if dumps fileHistoryJson && dumps hashMapJson then
      some ⟨some fileHistoryJson, some hashMapJson⟩
    else none

/-- The first loop of `loadFromDisk`:
`fileHistoryMap[filename] = new FileVersion(fileHash)` for every entry. -/
def loadHistory : Json → FileHistoryManager → FileHistoryManager
  | [], s => s
  | (filename, fileHash) :: entries, s =>
    loadHistory entries
      { s with heap := s.heap ++ [newFileVersion fileHash],
               fileHistoryMap := mapAssign s.fileHistoryMap filename s.heap.length }

/-- The second loop of `loadFromDisk`:
`hashMap[fileHash] = base64_decode(encodedContent)` for every entry. -/
def loadHashMap : Json → FileHistoryManager → FileHistoryManager
  | [], s => s
  | (fileHash, encodedContent) :: entries, s =>
    loadHashMap entries
      { s with hashMap := mapAssign s.hashMap fileHash (base64_decode encodedContent) }

/-- The function `FileHistoryManager::loadFromDisk`. -/
def loadFromDisk (disk : Disk) (s : FileHistoryManager) : FileHistoryManager :=
  match disk.fileHistoryFile, disk.hashMapFile with
  | some fileHistoryJson, some hashMapJson => loadHashMap hashMapJson (loadHistory fileHistoryJson s)
  | _, _ => s

/-- The way `addFileVersion` took: `noContent` is the return of line 196 and
`noChanges` the return of line 204, each after its message; `added newHash` is
the way through lines 207-216 or 212-216, on which a version with the digest
`newHash` is recorded in the two maps. The message of line 217 follows when
`saveToDisk` returns. -/
inductive Report where
  | noContent
  | noChanges
  | added (newHash : Str)
deriving DecidableEq

/-- The function `FileHistoryManager::addFileVersion`; `none` when a pointer
that is dereferenced, here or in `saveToDisk`, is not the address of a node.
Otherwise the result is the memory state that the call leaves, the record files
and the way taken. The record files are `none` when `saveToDisk` threw at line
216: the maps were updated at lines 200-215 before that, and the call ends with
the exception. -/
def addFileVersion (SHA256 : Str → Digest) (fs : Str → Option Str) (filename : Str)
    (s : FileHistoryManager) (disk : Disk) :
    Option (FileHistoryManager × Option Disk × Report) :=
  let content := readFileContent fs filename
  if content = [] then some (s, some disk, Report.noContent)
  else
    let newHash := calculateFileHash SHA256 content
    let linked : Option (Option FileHistoryManager) :=
      match mapFind s.fileHistoryMap filename with
      | some lastVersion =>
        match s.heap[lastVersion]? with
        | none => none
        | some last =>
          if last.hash = newHash then some none
          else
            let newVersion := s.heap.length
            some (some
              { s with heap := s.heap.set lastVersion { last with next := some newVersion }
                                ++ [{ newFileVersion newHash with prev := some lastVersion }],
                       fileHistoryMap := mapAssign s.fileHistoryMap filename newVersion })
      | none =>
        some (some
          { s with heap := s.heap ++ [newFileVersion newHash],
                   fileHistoryMap := mapAssign s.fileHistoryMap filename s.heap.length })
    match linked with
    | none => none
    | some none => some (s, some disk, Report.noChanges)
    | some (some s1) =>
      let s2 := { s1 with hashMap := mapAssign s1.hashMap newHash content }
      match saveHistoryJson s2.heap s2.fileHistoryMap [] with
      | none => none
      | some _ => some (s2, saveToDisk s2, Report.added newHash)

/-- The function `FileHistoryManager::getLatestHash`; `none` when the pointer
that is dereferenced is not the address of a node. -/
def getLatestHash (s : FileHistoryManager) (filename : Str) : Option Str :=
  match mapFind s.fileHistoryMap filename with
  | some version => (s.heap[version]?).map (fun node => node.hash)
  | none => some []

/-- The function `FileHistoryManager::isFileModified`. -/
def isFileModified (SHA256 : Str → Digest) (fs : Str → Option Str) (s : FileHistoryManager)
    (filename : Str) : Option Bool :=
  let content := readFileContent fs filename
  let newHash := calculateFileHash SHA256 content
  (getLatestHash s filename).map (fun latest => decide (latest ≠ newHash))

/-! ## Scanning the working tree (`initializeRepo`) -/

/-- One entry that `fs::recursive_directory_iterator(".")` yields: the entry at
`name` below the current directory has the path `./name`; `isRegular` is
`entry.is_regular_file()`. -/
structure DirEntry where
  name : Str
  isRegular : Bool
deriving DecidableEq

/-- The text `./`, with which every path of the walk starts. -/
def dotSlash : Str := [46, 47]

/-- The text `./data/.vcs`. -/
def vcsDir : Str := [46, 47, 100, 97, 116, 97, 47, 46, 118, 99, 115]

/-- The test `s.find(pat) != std::string::npos`: `pat` occurs in `s`. -/
def strContains (s pat : Str) : Bool := s.tails.any (fun t => pat.isPrefixOf t)

/-- The `for` loop of `initializeRepo` over the entries of the walk, from the
state of the manager and of the two local JSON objects. -/
def initializeRepoLoop (SHA256 : Str → Digest) (fs : Str → Option Str) :
    List DirEntry → FileHistoryManager × Json × Json → FileHistoryManager × Json × Json
  | [], st => st
  | entry :: entries, st =>
    if entry.isRegular then
      let filePath := dotSlash ++ entry.name
      if strContains filePath vcsDir then initializeRepoLoop SHA256 fs entries st
      else
        let content := readFileContent fs filePath
        if content = [] then initializeRepoLoop SHA256 fs entries st
        else
          let fileHash := calculateFileHash SHA256 content
          let relativePath := filePath.drop 2
          initializeRepoLoop SHA256 fs entries
            ({ heap := st.1.heap ++ [newFileVersion fileHash],
               fileHistoryMap := mapAssign st.1.fileHistoryMap relativePath st.1.heap.length,
               hashMap := mapAssign st.1.hashMap fileHash content },
             jsonAssign st.2.1 relativePath fileHash,
             jsonAssign st.2.2 fileHash (base64_encode content))
    else initializeRepoLoop SHA256 fs entries st

/-- The function `FileHistoryManager::initializeRepo`: the walk, then both
record files are written from the two local JSON objects. The second component
is `none` when `dump(4)` throws at line 180 or 184: the call ends there with the
maps filled, the file that was opened for the dump is left empty, and the
records cannot be read back. -/
def initializeRepo (SHA256 : Str → Digest) (fs : Str → Option Str) (listing : List DirEntry)
    (s : FileHistoryManager) : FileHistoryManager × Option Disk :=
  let r := initializeRepoLoop SHA256 fs listing (s, [], [])
  (r.1, if dumps r.2.1 && dumps r.2.2 then some ⟨some r.2.1, some r.2.2⟩ else none)

/-- The entry is one that `initializeRepo` registers: a regular file outside
`./data/.vcs` whose content reads as non-empty. -/
def isScanned (fs : Str → Option Str) (entry : DirEntry) : Bool :=
  entry.isRegular && !strContains (dotSlash ++ entry.name) vcsDir
    && decide (readFileContent fs (dotSlash ++ entry.name) ≠ [])

/-- The files that `initializeRepo` registers, as pairs of the relative path
and the content, in the order of the walk. -/
def scanned (fs : Str → Option Str) (listing : List DirEntry) : List (Str × Str) :=
  (listing.filter (isScanned fs)).map
    (fun entry => (entry.name, readFileContent fs (dotSlash ++ entry.name)))

/-- What `initializeRepo` does with one registered file. -/
def registerFile (SHA256 : Str → Digest) (st : FileHistoryManager × Json × Json)
    (file : Str × Str) : FileHistoryManager × Json × Json :=
  ({ heap := st.1.heap ++ [newFileVersion (calculateFileHash SHA256 file.2)],
     fileHistoryMap := mapAssign st.1.fileHistoryMap file.1 st.1.heap.length,
     hashMap := mapAssign st.1.hashMap (calculateFileHash SHA256 file.2) file.2 },
   jsonAssign st.2.1 file.1 (calculateFileHash SHA256 file.2),
   jsonAssign st.2.2 (calculateFileHash SHA256 file.2) (base64_encode file.2))

/-- The paths that `loadFromDisk` registers: the keys of the history record,
when both record files are there. -/
def loadedPaths (disk : Disk) : List Str :=
  match disk.fileHistoryFile, disk.hashMapFile with
  | some fileHistoryJson, some _ => fileHistoryJson.map Prod.fst
  | _, _ => []

/-! ## Well-formed states and chains -/

/-- Every pointer of `fileHistoryMap` is the address of a node. -/
def validPtrs (s : FileHistoryManager) : Prop :=
  ∀ e ∈ s.fileHistoryMap, e.2 < s.heap.length

instance (s : FileHistoryManager) : Decidable (validPtrs s) := by
  unfold validPtrs
  infer_instance

/-- Every `prev` link points to a node allocated earlier. -/
def prevOlder (heap : List FileVersion) : Prop :=
  ∀ a, a < heap.length → ∀ q ∈ (heap[a]?).bind (fun node => node.prev), q < a

instance (heap : List FileVersion) : Decidable (prevOlder heap) := by
  unfold prevOlder
  infer_instance

/-- No key occurs twice among the entries of a map. -/
def keysNodup {V : Type} (m : List (Str × V)) : Prop := (m.map Prod.fst).Nodup

instance {V : Type} (m : List (Str × V)) : Decidable (keysNodup m) := by
  unfold keysNodup
  infer_instance

/-- The addresses of the nodes reached from `p` through `prev` links, `p`
first; at most `fuel` of them. -/
def chainNodes (heap : List FileVersion) : Nat → Option Nat → List Nat
  | 0, _ => []
  | _ + 1, none => []
  | fuel + 1, some a =>
    match heap[a]? with
    | none => []
    | some node => a :: chainNodes heap fuel node.prev

/-- The chain of a path: the nodes from its tail back to its oldest node. A
chain of a heap whose `prev` links point to older nodes has at most
`heap.length` nodes. -/
def chainOf (s : FileHistoryManager) (filename : Str) : List Nat :=
  chainNodes s.heap s.heap.length (mapFind s.fileHistoryMap filename)

/-- The digest that the index gives for a path, when the path is tracked and
its pointer is the address of a node. -/
def latestOf (s : FileHistoryManager) (filename : Str) : Option Str :=
  (mapFind s.fileHistoryMap filename).bind (fun p => (s.heap[p]?).map (fun node => node.hash))

/-- Every string that `saveToDisk` puts into a JSON object is valid UTF-8: the
paths of the index with the digests of their tail nodes, and the digests of the
content store with their contents. -/
def textOnly (s : FileHistoryManager) : Bool :=
  s.fileHistoryMap.all
      (fun e => validUtf8 e.1 && (s.heap[e.2]?).all (fun node => validUtf8 node.hash))
    && s.hashMap.all (fun e => validUtf8 e.1 && validUtf8 e.2)

/-- Every digest held by a node of the heap is a key of the content store. -/
def heapStored (s : FileHistoryManager) : Prop :=
  ∀ node ∈ s.heap, node.hash ∈ s.hashMap.map Prod.fst

/-- The states reached from the empty manager by calls of `initializeRepo` and
`addFileVersion`, whatever the working tree holds at each call; the memory
state that a call leaves counts also when its record write threw. -/
inductive Reachable (SHA256 : Str → Digest) : FileHistoryManager → Prop where
  | empty : Reachable SHA256 emptyManager
  | init (fs : Str → Option Str) (listing : List DirEntry) (s : FileHistoryManager) :
      Reachable SHA256 s → Reachable SHA256 (initializeRepo SHA256 fs listing s).1
  | add (fs : Str → Option Str) (filename : Str) (s : FileHistoryManager) (disk : Disk)
      (r : FileHistoryManager × Option Disk × Report) :
      Reachable SHA256 s → addFileVersion SHA256 fs filename s disk = some r →
      Reachable SHA256 r.1

/-! ## Concrete data used in the examples -/

/-- The text `abc`. -/
def abc : Str := [97, 98, 99]

/-- The SHA-256 digest of `abc` (FIPS 180 test vector):
`ba7816bf 8f01cfea 414140de 5dae2223 b00361a3 96177a9c b410ff61 f20015ad`. -/
def sha256_abc : Digest :=
  ⟨[0xba, 0x78, 0x16, 0xbf, 0x8f, 0x01, 0xcf, 0xea, 0x41, 0x41, 0x40, 0xde, 0x5d, 0xae, 0x22, 0x23,
    0xb0, 0x03, 0x61, 0xa3, 0x96, 0x17, 0x7a, 0x9c, 0xb4, 0x10, 0xff, 0x61, 0xf2, 0x00, 0x15, 0xad],
   rfl⟩

/-- The text `hello`. -/
def hello : Str := [104, 101, 108, 108, 111]

/-- The SHA-256 digest of `hello`:
`2cf24dba 5fb0a30e 26e83b2a c5b9e29e 1b161e5c 1fa7425e 73043362 938b9824`. -/
def sha256_hello : Digest :=
  ⟨[0x2c, 0xf2, 0x4d, 0xba, 0x5f, 0xb0, 0xa3, 0x0e, 0x26, 0xe8, 0x3b, 0x2a, 0xc5, 0xb9, 0xe2, 0x9e,
    0x1b, 0x16, 0x1e, 0x5c, 0x1f, 0xa7, 0x42, 0x5e, 0x73, 0x04, 0x33, 0x62, 0x93, 0x8b, 0x98, 0x24],
   rfl⟩

/-- The path `a.txt`. -/
def aTxt : Str := [97, 46, 116, 120, 116]

/-- The path `b.txt`. -/
def bTxt : Str := [98, 46, 116, 120, 116]

/-- A manager that tracks `a.txt`, whose content is `hello`. -/
def helloManager : FileHistoryManager :=
  ⟨[newFileVersion (hexRender sha256_hello.val)], [(aTxt, 0)],
   [(hexRender sha256_hello.val, hello)]⟩

/-- The path `café.txt` as Latin-1 text, in which `é` is the single byte `E9`:
a file name that is not valid UTF-8. -/
def cafeTxt : Str := [99, 97, 102, 0xE9, 46, 116, 120, 116]

/-- A manager that tracks the Latin-1 path `café.txt`, whose content is
`hello`. -/
def cafeManager : FileHistoryManager :=
  ⟨[newFileVersion (hexRender sha256_hello.val)], [(cafeTxt, 0)],
   [(hexRender sha256_hello.val, hello)]⟩

/-- The two bytes `FF FE`, which no UTF-8 text contains. -/
def binaryContent : Str := [0xFF, 0xFE]

/-- The SHA-256 digest of the two bytes `FF FE`:
`b3d510ef 04275ca8 e698e5b3 cbb0ece3 949ef925 2f0cdc83 9e9ee347 409a2209`. -/
def sha256_binary : Digest :=
  ⟨[0xb3, 0xd5, 0x10, 0xef, 0x04, 0x27, 0x5c, 0xa8, 0xe6, 0x98, 0xe5, 0xb3, 0xcb, 0xb0, 0xec, 0xe3,
    0x94, 0x9e, 0xf9, 0x25, 0x2f, 0x0c, 0xdc, 0x83, 0x9e, 0x9e, 0xe3, 0x47, 0x40, 0x9a, 0x22, 0x09],
   rfl⟩

/-- The manager that `loadFromDisk` builds from the records that `saveToDisk`
wrote for `helloManager`: the content record holds the raw text `hello`, which
is read back through `base64_decode`. -/
def staleManager : FileHistoryManager :=
  loadFromDisk ⟨some [(aTxt, hexRender sha256_hello.val)],
    some [(hexRender sha256_hello.val, hello)]⟩ emptyManager

/-- A manager that tracks `a.txt`, whose content is the two bytes `FF FE`. -/
def binaryManager : FileHistoryManager :=
  ⟨[newFileVersion (hexRender sha256_binary.val)], [(aTxt, 0)],
   [(hexRender sha256_binary.val, binaryContent)]⟩

/-- The SHA-256 digest of the empty text:
`e3b0c442 98fc1c14 9afbf4c8 996fb924 27ae41e4 649b934c a495991b 7852b855`. -/
def sha256_empty : Digest :=
  ⟨[0xe3, 0xb0, 0xc4, 0x42, 0x98, 0xfc, 0x1c, 0x14, 0x9a, 0xfb, 0xf4, 0xc8, 0x99, 0x6f, 0xb9, 0x24,
    0x27, 0xae, 0x41, 0xe4, 0x64, 0x9b, 0x93, 0x4c, 0xa4, 0x95, 0x99, 0x1b, 0x78, 0x52, 0xb8, 0x55],
   rfl⟩

/-- A manager that tracks `a.txt` with two versions, `hello` and then `abc`. -/
def twoVersionManager : FileHistoryManager :=
  ⟨[⟨hexRender sha256_hello.val, none, some 1⟩, ⟨hexRender sha256_abc.val, some 0, none⟩],
   [(aTxt, 1)],
   [(hexRender sha256_hello.val, hello), (hexRender sha256_abc.val, abc)]⟩

/-- A digest that starts with the bytes `01 23`, the other thirty being `aa`. -/
def digest_01_23 : Digest := ⟨[0x01, 0x23] ++ List.replicate 30 0xaa, by decide⟩

/-- A digest that starts with the bytes `12 03`, the other thirty being `aa`. -/
def digest_12_03 : Digest := ⟨[0x12, 0x03] ++ List.replicate 30 0xaa, by decide⟩

/-! ## The states that `addFileVersion` leaves -/

/-- The state after `addFileVersion` recorded a first version of a path. -/
def recordedNew (s : FileHistoryManager) (filename newHash content : Str) :
    FileHistoryManager :=
  { heap := s.heap ++ [newFileVersion newHash],
    fileHistoryMap := mapAssign s.fileHistoryMap filename s.heap.length,
    hashMap := mapAssign s.hashMap newHash content }

/-- The state after `addFileVersion` appended a version to the chain whose
tail `last` is at address `lastVersion`. -/
def recordedNext (s : FileHistoryManager) (filename newHash content : Str)
    (lastVersion : Nat) (last : FileVersion) : FileHistoryManager :=
  { heap := s.heap.set lastVersion { last with next := some s.heap.length }
              ++ [{ newFileVersion newHash with prev := some lastVersion }],
    fileHistoryMap := mapAssign s.fileHistoryMap filename s.heap.length,
    hashMap := mapAssign s.hashMap newHash content }

/-! # Theorems -/

/-! ## The table lookups stay inside their tables -/

set_option maxRecDepth 100000 in
theorem base64_T_length : base64_T.length = 256 := by
  decide

theorem base64_chars_length : base64_chars.length = 64 := by
  decide

/-- The index of `base64_chars[... & 0x3F]` is inside the string. -/
theorem charAt_index_lt (i : Int) : (i % 64).toNat < base64_chars.length := by
  rw [base64_chars_length]
  omega

/-- The index of `T[c]` is inside the table. -/
theorem tableAt_index_lt (c : Byte) : c.val < base64_T.length := by
  rw [base64_T_length]
  exact c.isLt

/-! ## Arithmetic of the accumulators -/

theorem shr32_zero (x : Int) : shr32 x 0 = x := by
  show x / 2 ^ 0 = x
  simp

theorem shr32_two (x : Int) : shr32 x 2 = x / 4 := by
  show x / 2 ^ 2 = x / 4
  norm_num

theorem shr32_four (x : Int) : shr32 x 4 = x / 16 := by
  show x / 2 ^ 4 = x / 16
  norm_num

theorem shr32_six (x : Int) : shr32 x 6 = x / 64 := by
  show x / 2 ^ 6 = x / 64
  norm_num

theorem shl32_eight (x : Int) : shl32 x 8 = wrap32 (x * 256) := by
  show wrap32 (x * 2 ^ 8) = _
  norm_num

theorem shl32_six (x : Int) : shl32 x 6 = wrap32 (x * 64) := by
  show wrap32 (x * 2 ^ 6) = _
  norm_num

theorem charAt_of_mod {x : Int} {n : Nat} (h : x % 64 = (n : Int)) : charAt x = sextet n := by
  unfold charAt sextet
  rw [h, Int.toNat_ofNat]

theorem toChar_of_mod {x : Int} {b : Byte} (h : x % 256 = (b.val : Int)) : toChar x = b := by
  unfold toChar
  rw [h, Int.toNat_ofNat]
  apply Fin.ext
  show b.val % 256 = b.val
  exact Nat.mod_eq_of_lt b.isLt

theorem enc_idx_first (v : Int) (a : Byte) :
    shr32 (encAcc v a) 2 % 64 = ((a.val / 4 : Nat) : Int) := by
  have ha := a.isLt
  simp only [encAcc, shr32_two, add32, shl32_eight, wrap32]
  omega

theorem enc_idx_second (v : Int) (a b : Byte) :
    shr32 (encAcc (encAcc v a) b) 4 % 64 = ((a.val % 4 * 16 + b.val / 16 : Nat) : Int) := by
  have ha := a.isLt
  have hb := b.isLt
  simp only [encAcc, shr32_four, add32, shl32_eight, wrap32]
  omega

theorem enc_idx_third (v : Int) (b c : Byte) :
    shr32 (encAcc (encAcc v b) c) 6 % 64 = ((b.val % 16 * 4 + c.val / 64 : Nat) : Int) := by
  have hb := b.isLt
  have hc := c.isLt
  simp only [encAcc, shr32_six, add32, shl32_eight, wrap32]
  omega

theorem enc_idx_fourth (v : Int) (c : Byte) :
    shr32 (encAcc v c) 0 % 64 = ((c.val % 64 : Nat) : Int) := by
  have hc := c.isLt
  simp only [encAcc, shr32_zero, add32, shl32_eight, wrap32]
  omega

theorem enc_idx_tail_one (v : Int) (a : Byte) :
    shr32 (shl32 (encAcc v a) 8) 4 % 64 = ((a.val % 4 * 16 : Nat) : Int) := by
  have ha := a.isLt
  simp only [encAcc, shr32_four, add32, shl32_eight, wrap32]
  omega

theorem enc_idx_tail_two (v : Int) (b : Byte) :
    shr32 (shl32 (encAcc v b) 8) 6 % 64 = ((b.val % 16 * 4 : Nat) : Int) := by
  have hb := b.isLt
  simp only [encAcc, shr32_six, add32, shl32_eight, wrap32]
  omega

/-! ## One step of the encoder in each of its three phases -/

theorem encodeLoop_phase0 (a : Byte) (data : Str) (v : Int) (enc : Str) :
    base64_encodeLoop (a :: data) v (-6) enc
      = base64_encodeLoop data (encAcc v a) (-4) (enc ++ [sextet (a.val / 4)]) := by
  rw [← charAt_of_mod (enc_idx_first v a)]
  rfl

theorem encodeLoop_phase1 (a b : Byte) (data : Str) (v : Int) (enc : Str) :
    base64_encodeLoop (b :: data) (encAcc v a) (-4) enc
      = base64_encodeLoop data (encAcc (encAcc v a) b) (-2)
          (enc ++ [sextet (a.val % 4 * 16 + b.val / 16)]) := by
  rw [← charAt_of_mod (enc_idx_second v a b)]
  rfl

theorem encodeLoop_phase2 (b c : Byte) (data : Str) (v : Int) (enc : Str) :
    base64_encodeLoop (c :: data) (encAcc v b) (-2) enc
      = base64_encodeLoop data (encAcc (encAcc v b) c) (-6)
          (enc ++ [sextet (b.val % 16 * 4 + c.val / 64), sextet (c.val % 64)]) := by
  rw [← charAt_of_mod (enc_idx_third v b c), ← charAt_of_mod (enc_idx_fourth (encAcc v b) c)]
  simp only [base64_encodeLoop]
  show base64_encodeLoop data _ _ ((enc ++ [_]) ++ [_]) = _
  rw [List.append_assoc]
  rfl

/-! ## The decoder on a group of four sextets -/

theorem tableAt_sextet : ∀ n : Nat, n < 64 → tableAt (sextet n) = (n : Int) := by
  decide

theorem tableAt_padChar : tableAt padChar = -1 := by
  decide

theorem dec_byte_first (w : Int) (a : Byte) (x : Nat) (hx : x < 16) :
    shr32 (decAcc (decAcc w (a.val / 4)) (a.val % 4 * 16 + x)) 4 % 256 = (a.val : Int) := by
  have ha := a.isLt
  simp only [decAcc, shr32_four, add32, shl32_six, wrap32]
  omega

theorem dec_byte_second (w : Int) (a b : Byte) (y : Nat) (hy : y < 4) :
    shr32 (decAcc (decAcc w (a.val % 4 * 16 + b.val / 16)) (b.val % 16 * 4 + y)) 2 % 256
      = (b.val : Int) := by
  have ha := a.isLt
  have hb := b.isLt
  simp only [decAcc, shr32_two, add32, shl32_six, wrap32]
  omega

theorem dec_byte_third (w : Int) (b c : Byte) :
    shr32 (decAcc (decAcc w (b.val % 16 * 4 + c.val / 64)) (c.val % 64)) 0 % 256
      = (c.val : Int) := by
  have hb := b.isLt
  have hc := c.isLt
  simp only [decAcc, shr32_zero, add32, shl32_six, wrap32]
  omega

theorem decodeLoop_alphabet (c : Byte) (n : Nat) (h : tableAt c = (n : Int))
    (rest : Str) (w valb : Int) (dec : Str) :
    base64_decodeLoop (c :: rest) w valb dec
      = if valb + 6 ≥ 0 then
          base64_decodeLoop rest (decAcc w n) (valb + 6 - 8)
            (dec ++ [toChar (shr32 (decAcc w n) (valb + 6))])
        else base64_decodeLoop rest (decAcc w n) (valb + 6) dec := by
  have hne : ¬ ((n : Int) = -1) := by omega
  rw [base64_decodeLoop, h, if_neg hne]
  rfl

theorem decodeLoop_pad (rest : Str) (w valb : Int) (dec : Str) :
    base64_decodeLoop (padChar :: rest) w valb dec = dec := by
  rw [base64_decodeLoop, if_pos tableAt_padChar]

/-- Two sextets carrying one byte `a` (and four more bits `x`) decode to `a`. -/
theorem decodeLoop_two (a : Byte) (x : Nat) (hx : x < 16) (rest : Str) (w : Int) (dec : Str) :
    base64_decodeLoop (sextet (a.val / 4) :: sextet (a.val % 4 * 16 + x) :: rest) w (-8) dec
      = base64_decodeLoop rest (decAcc (decAcc w (a.val / 4)) (a.val % 4 * 16 + x)) (-4)
          (dec ++ [a]) := by
  have ha := a.isLt
  rw [decodeLoop_alphabet _ _ (tableAt_sextet _ (by omega)),
    if_neg (by decide),
    decodeLoop_alphabet _ _ (tableAt_sextet _ (by omega)),
    if_pos (by decide)]
  show base64_decodeLoop rest _ (-4) (dec ++ [toChar (shr32 _ 4)]) = _
  rw [toChar_of_mod (dec_byte_first w a x hx)]

/-- A third sextet completes the second byte `b`. -/
theorem decodeLoop_third (a b : Byte) (y : Nat) (hy : y < 4) (rest : Str) (w : Int)
    (dec : Str) :
    base64_decodeLoop (sextet (b.val % 16 * 4 + y) :: rest)
        (decAcc w (a.val % 4 * 16 + b.val / 16)) (-4) dec
      = base64_decodeLoop rest
          (decAcc (decAcc w (a.val % 4 * 16 + b.val / 16)) (b.val % 16 * 4 + y)) (-6)
          (dec ++ [b]) := by
  have hb := b.isLt
  rw [decodeLoop_alphabet _ _ (tableAt_sextet _ (by omega)),
    if_pos (by decide)]
  show base64_decodeLoop rest _ (-6) (dec ++ [toChar (shr32 _ 2)]) = _
  rw [toChar_of_mod (dec_byte_second w a b y hy)]

/-- A fourth sextet completes the third byte `c`. -/
theorem decodeLoop_fourth (b c : Byte) (rest : Str) (w : Int) (dec : Str) :
    base64_decodeLoop (sextet (c.val % 64) :: rest)
        (decAcc w (b.val % 16 * 4 + c.val / 64)) (-6) dec
      = base64_decodeLoop rest
          (decAcc (decAcc w (b.val % 16 * 4 + c.val / 64)) (c.val % 64)) (-8)
          (dec ++ [c]) := by
  have hc := c.isLt
  rw [decodeLoop_alphabet _ _ (tableAt_sextet _ (by omega)),
    if_pos (by decide)]
  show base64_decodeLoop rest _ (-8) (dec ++ [toChar (shr32 _ 0)]) = _
  rw [toChar_of_mod (dec_byte_third w b c)]

/-! ## Round trip of the codec -/

theorem base64_encode_eq (data : Str) :
    base64_encode data = encodeTail (base64_encodeLoop data 0 (-6) []) := rfl

theorem base64_pad_mod0 (l : Str) (h : l.length % 4 = 0) : base64_pad 3 l = l := by
  simp [base64_pad, h]

theorem base64_pad_mod3 (l : Str) (h : l.length % 4 = 3) :
    base64_pad 3 l = l ++ [padChar] := by
  have h1 : (l.length + 1) % 4 = 0 := by omega
  simp [base64_pad, h, h1]

theorem base64_pad_mod2 (l : Str) (h : l.length % 4 = 2) :
    base64_pad 3 l = l ++ [padChar, padChar] := by
  have h1 : (l.length + 1) % 4 = 3 := by omega
  have h2 : (l.length + 1 + 1) % 4 = 0 := by omega
  simp [base64_pad, h, h1, h2]

theorem base64_pad_mod1 (l : Str) (h : l.length % 4 = 1) :
    base64_pad 3 l = l ++ [padChar, padChar, padChar] := by
  have h1 : (l.length + 1) % 4 = 2 := by omega
  have h2 : (l.length + 1 + 1) % 4 = 3 := by omega
  have h3 : (l.length + 1 + 1 + 1) % 4 = 0 := by omega
  simp [base64_pad, h, h1, h2, h3]

/-- The encoder started on a group boundary (`valb = -6`, output length a
multiple of four) appends to its output a text that the decoder, started on a
group boundary (`valb = -8`), turns back into the input. -/
theorem encode_decode_aux : ∀ (data : Str) (v : Int) (enc : Str), enc.length % 4 = 0 →
    ∃ suf : Str, encodeTail (base64_encodeLoop data v (-6) enc) = enc ++ suf ∧
      ∀ (w : Int) (dec : Str), base64_decodeLoop suf w (-8) dec = dec ++ data
  | [], v, enc, h => by
    refine ⟨[], ?_, ?_⟩
    · show base64_pad 3 enc = enc ++ []
      rw [base64_pad_mod0 enc h, List.append_nil]
    · intro w dec
      simp [base64_decodeLoop]
  | [a], v, enc, h => by
    refine ⟨[sextet (a.val / 4), sextet (a.val % 4 * 16 + 0), padChar, padChar], ?_, ?_⟩
    · rw [encodeLoop_phase0]
      show base64_pad 3 ((enc ++ [sextet (a.val / 4)])
        ++ [charAt (shr32 (shl32 (encAcc v a) 8) 4)]) = _
      rw [charAt_of_mod (enc_idx_tail_one v a), base64_pad_mod2]
      · simp
      · simp only [List.length_append, List.length_singleton]
        omega
    · intro w dec
      rw [decodeLoop_two a 0 (by omega), decodeLoop_pad]
  | [a, b], v, enc, h => by
    refine ⟨[sextet (a.val / 4), sextet (a.val % 4 * 16 + b.val / 16),
      sextet (b.val % 16 * 4 + 0), padChar], ?_, ?_⟩
    · rw [encodeLoop_phase0, encodeLoop_phase1]
      show base64_pad 3 ((enc ++ [sextet (a.val / 4)] ++ [sextet (a.val % 4 * 16 + b.val / 16)])
        ++ [charAt (shr32 (shl32 (encAcc (encAcc v a) b) 8) 6)]) = _
      rw [charAt_of_mod (enc_idx_tail_two (encAcc v a) b), base64_pad_mod3]
      · simp
      · simp only [List.length_append, List.length_singleton]
        omega
    · intro w dec
      have hb := b.isLt
      rw [decodeLoop_two a (b.val / 16) (by omega), decodeLoop_third a b 0 (by omega),
        decodeLoop_pad]
      simp
  | a :: b :: c :: rest, v, enc, h => by
    have hlen : (enc ++ [sextet (a.val / 4)] ++ [sextet (a.val % 4 * 16 + b.val / 16)]
        ++ [sextet (b.val % 16 * 4 + c.val / 64), sextet (c.val % 64)]).length % 4 = 0 := by
      simp only [List.length_append, List.length_singleton, List.length_cons, List.length_nil]
      omega
    obtain ⟨suf, hsuf, hdec⟩ := encode_decode_aux rest (encAcc (encAcc (encAcc v a) b) c) _ hlen
    refine ⟨sextet (a.val / 4) :: sextet (a.val % 4 * 16 + b.val / 16)
      :: sextet (b.val % 16 * 4 + c.val / 64) :: sextet (c.val % 64) :: suf, ?_, ?_⟩
    · rw [encodeLoop_phase0, encodeLoop_phase1, encodeLoop_phase2, hsuf]
      simp
    · intro w dec
      have hb := b.isLt
      have hc := c.isLt
      rw [decodeLoop_two a (b.val / 16) (by omega),
        decodeLoop_third a b (c.val / 64) (by omega), decodeLoop_fourth b c, hdec]
      simp

/-- C1. For every byte sequence `b` (the empty one, and those with NUL or
non-UTF-8 bytes, included), `base64_decode (base64_encode b) = b`. -/
theorem base64_decode_encode (b : Str) : base64_decode (base64_encode b) = b := by
  obtain ⟨suf, hsuf, hdec⟩ := encode_decode_aux b 0 [] rfl
  rw [base64_encode_eq, hsuf]
  show base64_decodeLoop suf 0 (-8) [] = b
  rw [hdec]
  rfl

/-- The round trip of the codec, for use in the proofs about the records. -/
theorem decode_encode_eq (b : Str) : base64_decode (base64_encode b) = b := by
  obtain ⟨suf, hsuf, hdec⟩ := encode_decode_aux b 0 [] rfl
  rw [base64_encode_eq, hsuf]
  exact (hdec 0 []).trans (List.nil_append b)

/-! ## The decoder stops at the first character outside the alphabet -/

set_option maxRecDepth 100000 in
theorem tableAt_of_not_mem : ∀ c : Byte, c ∉ base64_chars → tableAt c = -1 := by
  decide

theorem decodeLoop_stop (c : Byte) (hc : tableAt c = -1) (t : Str) :
    ∀ (s : Str) (w valb : Int) (dec : Str),
      base64_decodeLoop (s ++ c :: t) w valb dec = base64_decodeLoop s w valb dec
  | [], w, valb, dec => by
    show base64_decodeLoop (c :: t) w valb dec = base64_decodeLoop [] w valb dec
    rw [base64_decodeLoop, base64_decodeLoop, if_pos hc]
  | x :: s, w, valb, dec => by
    rw [List.cons_append, base64_decodeLoop, base64_decodeLoop]
    by_cases hx : tableAt x = -1
    · rw [if_pos hx, if_pos hx]
    · rw [if_neg hx, if_neg hx]
      simp only []
      split
      · exact decodeLoop_stop c hc t s _ _ _
      · exact decodeLoop_stop c hc t s _ _ _

/-- C10. `base64_decode` is a total function, and it stops at the first
character outside the 64-character alphabet: for `s` made of alphabet
characters, `c` outside the alphabet (such as `'='`) and any `t`,
`base64_decode (s ++ [c] ++ t) = base64_decode s`. -/
theorem base64_decode_stops (s : Str) (c : Byte) (t : Str)
    (_hs : ∀ x ∈ s, x ∈ base64_chars) (hc : c ∉ base64_chars) :
    base64_decode (s ++ [c] ++ t) = base64_decode s := by
  unfold base64_decode
  rw [List.append_assoc, List.singleton_append]
  exact decodeLoop_stop c (tableAt_of_not_mem c hc) t s 0 (-8) []

set_option maxRecDepth 100000 in
theorem base64_decode_stops_witness :
    (∀ x ∈ ([97, 71, 86, 115] : Str), x ∈ base64_chars) ∧ padChar ∉ base64_chars ∧
      base64_decode (([97, 71, 86, 115] : Str) ++ [padChar] ++ [98, 71, 56, 61])
        = base64_decode [97, 71, 86, 115] :=
  ⟨by decide, by decide,
    base64_decode_stops [97, 71, 86, 115] padChar [98, 71, 56, 61] (by decide) (by decide)⟩

/-! ## The loops of the encoder run to their exit -/

theorem base64_encodeWhile_exit (val : Int) :
    ∀ (fuel : Nat) (valb : Int) (enc : Str), valb < 6 * (fuel : Int) →
      (base64_encodeWhile fuel val valb enc).1 < 0
  | 0, valb, enc, h => by
    simp only [base64_encodeWhile]
    omega
  | fuel + 1, valb, enc, h => by
    rw [base64_encodeWhile]
    split
    · apply base64_encodeWhile_exit val fuel
      push_cast at h
      omega
    · simp only []
      omega

/-- The bound that `base64_encodeLoop` passes to the inner loop lets it run
until `valb < 0`. -/
theorem base64_encodeWhile_done (val valb : Int) (enc : Str) :
    (base64_encodeWhile (valb.toNat / 6 + 1) val valb enc).1 < 0 := by
  apply base64_encodeWhile_exit
  push_cast
  omega

/-- Three iterations let the padding loop run until the size is a multiple of
four. -/
theorem base64_pad_done (l : Str) : (base64_pad 3 l).length % 4 = 0 := by
  have h : l.length % 4 = 0 ∨ l.length % 4 = 1 ∨ l.length % 4 = 2 ∨ l.length % 4 = 3 := by
    omega
  rcases h with h | h | h | h
  · rw [base64_pad_mod0 l h]
    exact h
  · rw [base64_pad_mod1 l h]
    simp only [List.length_append, List.length_cons, List.length_nil]
    omega
  · rw [base64_pad_mod2 l h]
    simp only [List.length_append, List.length_cons, List.length_nil]
    omega
  · rw [base64_pad_mod3 l h]
    simp only [List.length_append, List.length_cons, List.length_nil]
    omega

/-! ## The digest text -/

theorem hexOfInt_length_pos (n : Nat) : 1 ≤ (hexOfInt n).length := by
  unfold hexOfInt
  split <;> simp

theorem hexRender_foldl_length (hash : List Byte) :
    ∀ acc : Str, acc.length + hash.length
      ≤ (hash.foldl (fun hashStream c => hashStream ++ hexOfInt c.val) acc).length := by
  induction hash with
  | nil =>
    intro acc
    simp
  | cons c hash ih =>
    intro acc
    rw [List.foldl_cons]
    have h1 := ih (acc ++ hexOfInt c.val)
    have h2 := hexOfInt_length_pos c.val
    simp only [List.length_append, List.length_cons] at h1 ⊢
    omega

theorem calculateFileHash_length_ge (SHA256 : Str → Digest) (content : Str) :
    32 ≤ (calculateFileHash SHA256 content).length := by
  have h := hexRender_foldl_length (SHA256 content).val []
  rw [(SHA256 content).property] at h
  simpa [calculateFileHash, hexRender] using h

theorem calculateFileHash_ne_nil (SHA256 : Str → Digest) (content : Str) :
    calculateFileHash SHA256 content ≠ [] := by
  intro h
  have h1 := calculateFileHash_length_ge SHA256 content
  rw [h] at h1
  simp at h1

theorem hexDigit_mem : ∀ d : Fin 16, hexDigit d.val ∈ hexDigits := by
  decide

theorem hexOfInt_byte (c : Byte) :
    (hexOfInt c.val).length ≤ 2 ∧ ∀ x ∈ hexOfInt c.val, x ∈ hexDigits := by
  have hc := c.isLt
  unfold hexOfInt
  split
  · rename_i h
    refine ⟨by simp, ?_⟩
    intro x hx
    rw [List.mem_singleton] at hx
    rw [hx]
    exact hexDigit_mem ⟨c.val, h⟩
  · refine ⟨by simp, ?_⟩
    intro x hx
    simp only [List.mem_cons, List.mem_singleton, List.not_mem_nil, or_false] at hx
    rcases hx with hx | hx
    · rw [hx]
      exact hexDigit_mem ⟨c.val / 16, by omega⟩
    · rw [hx]
      exact hexDigit_mem ⟨c.val % 16, by omega⟩

theorem hexRender_foldl_bounds (hash : List Byte) :
    ∀ acc : Str, (∀ x ∈ acc, x ∈ hexDigits) →
      (hash.foldl (fun hashStream c => hashStream ++ hexOfInt c.val) acc).length
          ≤ acc.length + 2 * hash.length ∧
        ∀ x ∈ hash.foldl (fun hashStream c => hashStream ++ hexOfInt c.val) acc,
          x ∈ hexDigits := by
  induction hash with
  | nil =>
    intro acc hacc
    exact ⟨by simp, hacc⟩
  | cons c hash ih =>
    intro acc hacc
    rw [List.foldl_cons]
    have hc := hexOfInt_byte c
    have h1 := ih (acc ++ hexOfInt c.val) (by
      intro x hx
      rcases List.mem_append.mp hx with h | h
      · exact hacc x h
      · exact hc.2 x h)
    refine ⟨?_, h1.2⟩
    have h2 := h1.1
    simp only [List.length_append, List.length_cons] at h2 ⊢
    omega

/-- What holds of the digest text: between 32 and 64 characters, all of them
lowercase hexadecimal digits. -/
theorem calculateFileHash_bounds (SHA256 : Str → Digest) (content : Str) :
    32 ≤ (calculateFileHash SHA256 content).length ∧
      (calculateFileHash SHA256 content).length ≤ 64 ∧
      ∀ x ∈ calculateFileHash SHA256 content, x ∈ hexDigits := by
  have h := hexRender_foldl_bounds (SHA256 content).val [] (by simp)
  rw [(SHA256 content).property] at h
  refine ⟨calculateFileHash_length_ge SHA256 content, ?_, h.2⟩
  have h1 := h.1
  simp only [List.length_nil] at h1
  exact h1

set_option maxRecDepth 100000 in
/-- The text of `hexOfInt` is the hexadecimal numeral of the value, as
`Nat.toDigits` writes it. -/
theorem hexOfInt_eq_toDigits :
    ∀ c : Byte, hexOfInt c.val = (Nat.toDigits 16 c.val).map (fun ch => Fin.ofNat ch.toNat) := by
  decide

/-- C4 (at the failing input). The digest of `abc` has the bytes `01`, `03`
and `00`, each written as one digit: the text is
`ba7816bf8f1cfea414140de5dae2223b0361a396177a9cb410ff61f2015ad`, of 61
characters, not 64. -/
theorem calculateFileHash_abc_short (SHA256 : Str → Digest) (h : SHA256 abc = sha256_abc) :
    calculateFileHash SHA256 abc
        = [98, 97, 55, 56, 49, 54, 98, 102, 56, 102, 49, 99, 102, 101, 97, 52, 49, 52, 49, 52,
           48, 100, 101, 53, 100, 97, 101, 50, 50, 50, 51, 98, 48, 51, 54, 49, 97, 51, 57, 54,
           49, 55, 55, 97, 57, 99, 98, 52, 49, 48, 102, 102, 54, 49, 102, 50, 48, 49, 53, 97,
           100] ∧
      (calculateFileHash SHA256 abc).length = 61 := by
  unfold calculateFileHash
  rw [h]
  constructor <;> decide

theorem calculateFileHash_abc_short_witness :
    (fun _ : Str => sha256_abc) abc = sha256_abc ∧
      (calculateFileHash (fun _ : Str => sha256_abc) abc).length = 61 :=
  ⟨rfl, (calculateFileHash_abc_short (fun _ : Str => sha256_abc) rfl).2⟩

/-! ## Maps -/

theorem mapFind_mapAssign {V : Type} (k : Str) (v : V) (k' : Str) :
    ∀ m : List (Str × V),
      mapFind (mapAssign m k v) k' = if k = k' then some v else mapFind m k'
  | [] => by
    simp [mapAssign, mapFind]
  | (k0, v0) :: m => by
    have ih := mapFind_mapAssign k v k' m
    by_cases h0 : k0 = k
    · subst h0
      by_cases h1 : k0 = k' <;> simp [mapAssign, mapFind, h1]
    · by_cases h1 : k = k'
      · subst h1
        simp [mapAssign, mapFind, h0, ih]
      · simp [mapAssign, mapFind, h0, h1, ih]

theorem mapFind_mapAssign_self {V : Type} (m : List (Str × V)) (k : Str) (v : V) :
    mapFind (mapAssign m k v) k = some v := by
  rw [mapFind_mapAssign, if_pos rfl]

theorem mapFind_mapAssign_ne {V : Type} (m : List (Str × V)) (k : Str) (v : V) (k' : Str)
    (h : k ≠ k') : mapFind (mapAssign m k v) k' = mapFind m k' := by
  rw [mapFind_mapAssign, if_neg h]

theorem mapAssign_length {V : Type} (k : Str) (v : V) :
    ∀ m : List (Str × V),
      (mapAssign m k v).length = if (mapFind m k).isSome then m.length else m.length + 1
  | [] => by
    simp [mapAssign, mapFind]
  | (k0, v0) :: m => by
    have ih := mapAssign_length k v m
    by_cases h0 : k0 = k
    · simp [mapAssign, mapFind, h0]
    · simp only [mapAssign, mapFind, if_neg h0, List.length_cons, ih]
      split <;> rfl

theorem mem_mapAssign {V : Type} (k : Str) (v : V) (e : Str × V) :
    ∀ m : List (Str × V), e ∈ mapAssign m k v → e = (k, v) ∨ e ∈ m
  | [] => by
    simp [mapAssign]
  | (k0, v0) :: m => by
    have ih := mem_mapAssign k v e m
    by_cases h0 : k0 = k
    · simp only [mapAssign, if_pos h0, List.mem_cons]
      intro h
      rcases h with h | h
      · exact Or.inl h
      · exact Or.inr (Or.inr h)
    · simp only [mapAssign, if_neg h0, List.mem_cons]
      intro h
      rcases h with h | h
      · exact Or.inr (Or.inl h)
      · rcases ih h with h | h
        · exact Or.inl h
        · exact Or.inr (Or.inr h)

theorem mapFind_eq_none_of_not_mem {V : Type} (k : Str) :
    ∀ m : List (Str × V), k ∉ m.map Prod.fst → mapFind m k = none
  | [] => by
    simp [mapFind]
  | (k0, v0) :: m => by
    intro h
    simp only [List.map_cons, List.mem_cons, not_or] at h
    rw [mapFind, if_neg (fun e => h.1 e.symm)]
    exact mapFind_eq_none_of_not_mem k m h.2

theorem mem_of_mapFind {V : Type} (k : Str) (v : V) :
    ∀ m : List (Str × V), mapFind m k = some v → (k, v) ∈ m
  | [] => by
    simp [mapFind]
  | (k0, v0) :: m => by
    intro h
    rw [mapFind] at h
    by_cases h0 : k0 = k
    · rw [if_pos h0] at h
      cases h
      rw [h0]
      exact List.mem_cons_self _ _
    · rw [if_neg h0] at h
      exact List.mem_cons_of_mem _ (mem_of_mapFind k v m h)

theorem mem_keys_mapAssign {V : Type} (k : Str) (v : V) (k' : Str) :
    ∀ m : List (Str × V),
      k' ∈ (mapAssign m k v).map Prod.fst ↔ k' = k ∨ k' ∈ m.map Prod.fst
  | [] => by
    simp [mapAssign]
  | (k0, v0) :: m => by
    have ih := mem_keys_mapAssign k v k' m
    by_cases h0 : k0 = k
    · subst h0
      simp [mapAssign]
    · simp only [mapAssign, if_neg h0, List.map_cons, List.mem_cons, ih]
      constructor
      · rintro (h | h | h)
        · exact Or.inr (Or.inl h)
        · exact Or.inl h
        · exact Or.inr (Or.inr h)
      · rintro (h | h | h)
        · exact Or.inr (Or.inl h)
        · exact Or.inl h
        · exact Or.inr (Or.inr h)

theorem keysNodup_mapAssign {V : Type} (k : Str) (v : V) :
    ∀ m : List (Str × V), keysNodup m → keysNodup (mapAssign m k v)
  | [] => by
    intro _
    simp [mapAssign, keysNodup]
  | (k0, v0) :: m => by
    intro h
    unfold keysNodup at h ⊢
    rw [List.map_cons, List.nodup_cons] at h
    by_cases h0 : k0 = k
    · subst h0
      simp only [mapAssign, if_true, List.map_cons, List.nodup_cons]
      exact h
    · simp only [mapAssign, if_neg h0, List.map_cons, List.nodup_cons]
      refine ⟨?_, keysNodup_mapAssign k v m h.2⟩
      rw [mem_keys_mapAssign]
      rintro (h1 | h1)
      · exact h0 h1
      · exact h.1 h1

theorem mapFind_isSome_iff_mem_keys {V : Type} (k : Str) :
    ∀ m : List (Str × V), (mapFind m k).isSome ↔ k ∈ m.map Prod.fst
  | [] => by
    simp [mapFind]
  | (k0, v0) :: m => by
    have ih := mapFind_isSome_iff_mem_keys k m
    by_cases h0 : k0 = k
    · simp [mapFind, h0]
    · have h1 : ¬ k = k0 := fun e => h0 e.symm
      simp [mapFind, h0, h1, ih]

/-! ## JSON objects -/

theorem strLt_irrefl : ∀ x : Str, strLt x x = false
  | [] => rfl
  | a :: x => by
    simp [strLt, strLt_irrefl x]

theorem strLt_trans : ∀ x y z : Str, strLt x y = true → strLt y z = true → strLt x z = true
  | [], [], _, h, _ => by simp [strLt] at h
  | [], _ :: _, [], _, h => by simp [strLt] at h
  | [], _ :: _, _ :: _, _, _ => rfl
  | _ :: _, [], _, h, _ => by simp [strLt] at h
  | _ :: _, _ :: _, [], _, h => by simp [strLt] at h
  | a :: x, b :: y, c :: z, h1, h2 => by
    have ih := strLt_trans x y z
    simp only [strLt] at h1 h2 ⊢
    by_cases hab : a < b
    · by_cases hbc : b < c
      · rw [if_pos (lt_trans hab hbc)]
      · rw [if_neg hbc] at h2
        by_cases hcb : c < b
        · rw [if_pos hcb] at h2
          cases h2
        · have hbceq : b = c := le_antisymm (not_lt.mp hcb) (not_lt.mp hbc)
          subst hbceq
          rw [if_pos hab]
    · rw [if_neg hab] at h1
      by_cases hba : b < a
      · rw [if_pos hba] at h1
        cases h1
      · rw [if_neg hba] at h1
        have habeq : a = b := le_antisymm (not_lt.mp hba) (not_lt.mp hab)
        subst habeq
        by_cases hac : a < c
        · rw [if_pos hac]
        · rw [if_neg hac] at h2 ⊢
          by_cases hca : c < a
          · rw [if_pos hca] at h2
            cases h2
          · rw [if_neg hca] at h2 ⊢
            exact ih h1 h2

theorem strLt_total : ∀ x y : Str, x ≠ y → strLt x y = false → strLt y x = true
  | [], [], h, _ => absurd rfl h
  | [], _ :: _, _, h => by simp [strLt] at h
  | _ :: _, [], _, _ => rfl
  | a :: x, b :: y, hne, h => by
    have ih := strLt_total x y
    simp only [strLt] at h ⊢
    by_cases hab : a < b
    · rw [if_pos hab] at h
      cases h
    · rw [if_neg hab] at h
      by_cases hba : b < a
      · rw [if_pos hba]
      · rw [if_neg hba] at h ⊢
        have habeq : a = b := le_antisymm (not_lt.mp hba) (not_lt.mp hab)
        subst habeq
        rw [if_neg hab]
        exact ih (fun e => hne (by rw [e])) h

theorem mapFind_jsonAssign (k v k' : Str) :
    ∀ j : Json, mapFind (jsonAssign j k v) k' = if k = k' then some v else mapFind j k'
  | [] => by
    simp [jsonAssign, mapFind]
  | (k0, v0) :: j => by
    have ih := mapFind_jsonAssign k v k' j
    by_cases h0 : k0 = k
    · subst h0
      by_cases h1 : k0 = k' <;> simp [jsonAssign, mapFind, h1]
    · by_cases hlt : strLt k k0 = true
      · by_cases h1 : k = k'
        · subst h1
          simp [jsonAssign, mapFind, h0, hlt]
        · simp [jsonAssign, mapFind, h0, hlt, h1]
      · by_cases h1 : k = k'
        · subst h1
          simp [jsonAssign, mapFind, h0, hlt, ih]
        · simp [jsonAssign, mapFind, h0, hlt, h1, ih]

theorem mem_keys_jsonAssign (k v k' : Str) :
    ∀ j : Json, k' ∈ (jsonAssign j k v).map Prod.fst ↔ k' = k ∨ k' ∈ j.map Prod.fst
  | [] => by
    simp [jsonAssign]
  | (k0, v0) :: j => by
    have ih := mem_keys_jsonAssign k v k' j
    by_cases h0 : k0 = k
    · subst h0
      simp [jsonAssign]
    · by_cases hlt : strLt k k0 = true
      · simp [jsonAssign, h0, hlt]
      · simp only [jsonAssign, if_neg h0, if_neg hlt, List.map_cons, List.mem_cons, ih]
        constructor
        · rintro (h | h | h)
          · exact Or.inr (Or.inl h)
          · exact Or.inl h
          · exact Or.inr (Or.inr h)
        · rintro (h | h | h)
          · exact Or.inr (Or.inl h)
          · exact Or.inl h
          · exact Or.inr (Or.inr h)

theorem jsonSorted_jsonAssign (k v : Str) :
    ∀ j : Json, jsonSorted j → jsonSorted (jsonAssign j k v)
  | [] => by
    intro _
    simp [jsonAssign, jsonSorted]
  | (k0, v0) :: j => by
    intro h
    unfold jsonSorted at h ⊢
    rw [List.map_cons, List.pairwise_cons] at h
    by_cases h0 : k0 = k
    · subst h0
      simp only [jsonAssign, if_true, List.map_cons, List.pairwise_cons]
      exact h
    · by_cases hlt : strLt k k0 = true
      · simp only [jsonAssign, if_neg h0, if_pos hlt, List.map_cons, List.pairwise_cons,
          List.mem_cons]
        refine ⟨?_, h⟩
        rintro b (hb | hb)
        · rw [hb]
          exact hlt
        · exact strLt_trans k k0 b hlt (h.1 b hb)
      · simp only [jsonAssign, if_neg h0, if_neg hlt, List.map_cons, List.pairwise_cons]
        refine ⟨?_, jsonSorted_jsonAssign k v j h.2⟩
        intro b hb
        rcases (mem_keys_jsonAssign k v b j).mp hb with hb | hb
        · rw [hb]
          exact strLt_total k k0 (fun e => h0 e.symm) (by simpa using hlt)
        · exact h.1 b hb

theorem keysNodup_of_jsonSorted (j : Json) (h : jsonSorted j) : keysNodup j := by
  unfold keysNodup List.Nodup
  unfold jsonSorted at h
  refine List.Pairwise.imp ?_ h
  intro a b hab e
  rw [e, strLt_irrefl] at hab
  cases hab

/-! ## Chains -/

theorem chainNodes_none (heap : List FileVersion) (fuel : Nat) :
    chainNodes heap fuel none = [] := by
  cases fuel <;> rfl

theorem prevOlder_lt {heap : List FileVersion} (h : prevOlder heap) {a q : Nat}
    {node : FileVersion} (ha : heap[a]? = some node) (hq : node.prev = some q) : q < a := by
  have hlt : a < heap.length := by
    by_contra hge
    rw [List.getElem?_eq_none (Nat.le_of_not_lt hge)] at ha
    cases ha
  apply h a hlt q
  rw [ha]
  exact hq

/-- With `prev` links that point to older nodes, the walk from the node at
address `a` ends within `a + 1` steps: more fuel does not change it. -/
theorem chainNodes_fuel {heap : List FileVersion} (h : prevOlder heap) :
    ∀ (fuel fuel' a : Nat), a < fuel → a < fuel' →
      chainNodes heap fuel (some a) = chainNodes heap fuel' (some a)
  | 0, _, _, h1, _ => absurd h1 (Nat.not_lt_zero _)
  | _ + 1, 0, _, _, h2 => absurd h2 (Nat.not_lt_zero _)
  | fuel + 1, fuel' + 1, a, h1, h2 => by
    rw [chainNodes, chainNodes]
    cases hnode : heap[a]? with
    | none => rfl
    | some node =>
      simp only []
      cases hprev : node.prev with
      | none => rw [chainNodes_none, chainNodes_none]
      | some q =>
        have hq := prevOlder_lt h hnode hprev
        rw [chainNodes_fuel h fuel fuel' q (by omega) (by omega)]

/-- The walk only reads the `prev` links: a heap that has the same `prev` link
at every old address gives the same walk from an old address. -/
theorem chainNodes_congr {heap heap' : List FileVersion} (h : prevOlder heap)
    (hsame : ∀ (a : Nat) (node : FileVersion), heap[a]? = some node →
      ∃ node' : FileVersion, heap'[a]? = some node' ∧ node'.prev = node.prev) :
    ∀ (fuel a : Nat), a < heap.length →
      chainNodes heap' fuel (some a) = chainNodes heap fuel (some a)
  | 0, _, _ => rfl
  | fuel + 1, a, ha => by
    have hnode : heap[a]? = some heap[a] := List.getElem?_eq_getElem ha
    obtain ⟨node', hnode', hprev'⟩ := hsame a _ hnode
    rw [chainNodes, chainNodes, hnode, hnode']
    simp only []
    rw [hprev']
    cases hprev : heap[a].prev with
    | none => rw [chainNodes_none, chainNodes_none]
    | some q =>
      have hq := prevOlder_lt h hnode hprev
      rw [chainNodes_congr h hsame fuel q (by omega)]

theorem chainNodes_single (heap : List FileVersion) (p : Nat) (h : Str)
    (hp : heap[p]? = some (newFileVersion h)) :
    chainNodes heap heap.length (some p) = [p] := by
  have hlt : p < heap.length := by
    by_contra hge
    rw [List.getElem?_eq_none (Nat.le_of_not_lt hge)] at hp
    cases hp
  obtain ⟨n, hn⟩ : ∃ n, heap.length = n + 1 := ⟨heap.length - 1, by omega⟩
  rw [hn, chainNodes, hp]
  show p :: chainNodes heap n none = [p]
  rw [chainNodes_none]

/-! ## Objects that `dump` writes -/

/-- A string of bytes below `80` (ASCII) is valid UTF-8. -/
theorem validUtf8_ascii (s : Str) (h : ∀ x ∈ s, x.val < 0x80) : validUtf8 s = true := by
  unfold validUtf8
  induction s with
  | nil => rfl
  | cons a rest ih =>
    rw [utf8Scan, if_pos rfl, if_pos (h a (List.mem_cons_self _ _))]
    exact ih (fun x hx => h x (List.mem_cons_of_mem _ hx))

theorem dumps_iff (j : Json) :
    dumps j = true ↔ ∀ e ∈ j, validUtf8 e.1 = true ∧ validUtf8 e.2 = true := by
  unfold dumps
  simp only [List.all_eq_true, Bool.and_eq_true]

theorem mem_jsonAssign (k v : Str) (e : Str × Str) :
    ∀ j : Json, e ∈ jsonAssign j k v → e = (k, v) ∨ e ∈ j
  | [] => by
    simp [jsonAssign]
  | (k0, v0) :: j => by
    have ih := mem_jsonAssign k v e j
    by_cases h0 : k0 = k
    · simp only [jsonAssign, if_pos h0, List.mem_cons]
      rintro (h | h)
      · exact Or.inl h
      · exact Or.inr (Or.inr h)
    · by_cases hlt : strLt k k0 = true
      · simp only [jsonAssign, if_neg h0, if_pos hlt, List.mem_cons]
        exact id
      · simp only [jsonAssign, if_neg h0, if_neg hlt, List.mem_cons]
        rintro (h | h)
        · exact Or.inr (Or.inl h)
        · rcases ih h with h | h
          · exact Or.inl h
          · exact Or.inr (Or.inr h)

theorem dumps_jsonAssign (j : Json) (k v : Str) (hj : dumps j = true)
    (hk : validUtf8 k = true) (hv : validUtf8 v = true) : dumps (jsonAssign j k v) = true := by
  rw [dumps_iff] at hj ⊢
  intro e he
  rcases mem_jsonAssign k v e j he with h | h
  · rw [h]
    exact ⟨hk, hv⟩
  · exact hj e h

theorem dumps_saveHistoryJson (heap : List FileVersion) :
    ∀ (m : List (Str × Nat)) (j j' : Json),
      (∀ e ∈ m, validUtf8 e.1 = true ∧
        ∀ node, heap[e.2]? = some node → validUtf8 node.hash = true) →
      dumps j = true → saveHistoryJson heap m j = some j' → dumps j' = true
  | [], j, j', _, hj, h => by
    rw [saveHistoryJson] at h
    cases h
    exact hj
  | (f, p) :: m, j, j', ht, hj, h => by
    rw [saveHistoryJson] at h
    cases hnode : heap[p]? with
    | none =>
      rw [hnode] at h
      cases h
    | some node =>
      rw [hnode] at h
      have hf := ht (f, p) (List.mem_cons_self _ _)
      exact dumps_saveHistoryJson heap m _ j' (fun e he => ht e (List.mem_cons_of_mem _ he))
        (dumps_jsonAssign j f node.hash hj hf.1 (hf.2 node hnode)) h

theorem dumps_saveHashMapJson :
    ∀ (m : List (Str × Str)) (j : Json),
      (∀ e ∈ m, validUtf8 e.1 = true ∧ validUtf8 e.2 = true) →
      dumps j = true → dumps (saveHashMapJson m j) = true
  | [], j, _, hj => hj
  | (d, c) :: m, j, ht, hj => by
    rw [saveHashMapJson]
    have hd := ht (d, c) (List.mem_cons_self _ _)
    exact dumps_saveHashMapJson m _ (fun e he => ht e (List.mem_cons_of_mem _ he))
      (dumps_jsonAssign j d c hj hd.1 hd.2)

/-- On a state whose strings are valid UTF-8 both calls of `dump` return, and
`saveToDisk` writes the two objects that its loops built. -/
theorem saveToDisk_text (s : FileHistoryManager) (j : Json)
    (hj : saveHistoryJson s.heap s.fileHistoryMap [] = some j) (ht : textOnly s = true) :
    saveToDisk s = some ⟨some j, some (saveHashMapJson s.hashMap [])⟩ := by
  unfold textOnly at ht
  rw [Bool.and_eq_true, List.all_eq_true, List.all_eq_true] at ht
  have h1 : dumps j = true := by
    refine dumps_saveHistoryJson s.heap s.fileHistoryMap [] j ?_ rfl hj
    intro e he
    have h := ht.1 e he
    rw [Bool.and_eq_true] at h
    refine ⟨h.1, ?_⟩
    intro node hnode
    rw [hnode] at h
    exact h.2
  have h2 : dumps (saveHashMapJson s.hashMap []) = true := by
    refine dumps_saveHashMapJson s.hashMap [] ?_ rfl
    intro e he
    have h := ht.2 e he
    rw [Bool.and_eq_true] at h
    exact h
  unfold saveToDisk
  rw [hj]
  simp only [h1, h2, Bool.and_self, if_true]

/-! ## Saving and loading the history record -/

theorem loadHashMap_heap : ∀ (entries : Json) (s : FileHistoryManager),
    (loadHashMap entries s).heap = s.heap ∧
      (loadHashMap entries s).fileHistoryMap = s.fileHistoryMap
  | [], s => ⟨rfl, rfl⟩
  | (h, c) :: entries, s => by
    rw [loadHashMap]
    exact loadHashMap_heap entries _

theorem loadHistory_spec : ∀ (entries : Json) (s : FileHistoryManager),
    keysNodup entries →
      (loadHistory entries s).hashMap = s.hashMap ∧
      (∃ l, (loadHistory entries s).heap = s.heap ++ l) ∧
      ∀ k, match mapFind entries k with
        | some h => ∃ p, mapFind (loadHistory entries s).fileHistoryMap k = some p ∧
            (loadHistory entries s).heap[p]? = some (newFileVersion h)
        | none => mapFind (loadHistory entries s).fileHistoryMap k = mapFind s.fileHistoryMap k
  | [], s, _ => by
    refine ⟨rfl, ⟨[], by simp [loadHistory]⟩, ?_⟩
    intro k
    simp [mapFind, loadHistory]
  | (f, h) :: entries, s, hnd => by
    unfold keysNodup at hnd
    rw [List.map_cons, List.nodup_cons] at hnd
    obtain ⟨ih1, ⟨l, ih2⟩, ih3⟩ := loadHistory_spec entries
      { s with heap := s.heap ++ [newFileVersion h],
               fileHistoryMap := mapAssign s.fileHistoryMap f s.heap.length } hnd.2
    rw [loadHistory]
    refine ⟨ih1, ⟨newFileVersion h :: l, ?_⟩, ?_⟩
    · rw [ih2]
      simp
    · intro k
      have ihk := ih3 k
      rw [mapFind]
      by_cases hk : f = k
      · subst hk
        rw [if_pos rfl]
        rw [mapFind_eq_none_of_not_mem f entries hnd.1] at ihk
        simp only [] at ihk ⊢
        refine ⟨s.heap.length, ?_, ?_⟩
        · rw [ihk, mapFind_mapAssign_self]
        · rw [ih2]
          show ((s.heap ++ [newFileVersion h]) ++ l)[s.heap.length]? = _
          rw [List.append_assoc, List.getElem?_append_right (le_refl _)]
          simp
      · rw [if_neg hk]
        cases hmk : mapFind entries k with
        | none =>
          rw [hmk] at ihk
          simp only [] at ihk ⊢
          rw [ihk, mapFind_mapAssign_ne _ _ _ _ hk]
        | some h' =>
          rw [hmk] at ihk
          exact ihk

theorem saveHistoryJson_isSome (heap : List FileVersion) :
    ∀ (m : List (Str × Nat)) (j : Json), (∀ e ∈ m, e.2 < heap.length) →
      ∃ j', saveHistoryJson heap m j = some j'
  | [], j, _ => ⟨j, rfl⟩
  | (f, p) :: m, j, hv => by
    have hp : p < heap.length := hv (f, p) (List.mem_cons_self _ _)
    rw [saveHistoryJson, List.getElem?_eq_getElem hp]
    exact saveHistoryJson_isSome heap m _ (fun e he => hv e (List.mem_cons_of_mem _ he))


theorem validPtrs_mapAssign (heap heap' : List FileVersion) (m : List (Str × Nat))
    (hashMap hashMap' : List (Str × Str)) (filename : Str)
    (hv : validPtrs ⟨heap, m, hashMap⟩) (hlen : heap'.length = heap.length + 1) :
    validPtrs ⟨heap', mapAssign m filename heap.length, hashMap'⟩ := by
  intro e he
  show e.2 < heap'.length
  rw [hlen]
  rcases mem_mapAssign _ _ _ _ he with h | h
  · rw [h]
    exact Nat.lt_succ_self _
  · exact Nat.lt_succ_of_lt (hv e h)

theorem addFileVersion_new (SHA256 : Str → Digest) (fs : Str → Option Str)
    (filename content : Str) (s : FileHistoryManager) (disk : Disk)
    (hfs : fs filename = some content) (hne : content ≠ [])
    (hun : mapFind s.fileHistoryMap filename = none) (hv : validPtrs s) :
    addFileVersion SHA256 fs filename s disk
      = some (recordedNew s filename (calculateFileHash SHA256 content) content,
          saveToDisk (recordedNew s filename (calculateFileHash SHA256 content) content),
          Report.added (calculateFileHash SHA256 content)) := by
  have hc : readFileContent fs filename = content := by
    unfold readFileContent
    rw [hfs]
  have hv2 : validPtrs (recordedNew s filename (calculateFileHash SHA256 content) content) :=
    validPtrs_mapAssign s.heap _ s.fileHistoryMap s.hashMap _ filename hv (by simp)
  obtain ⟨j, hj⟩ := saveHistoryJson_isSome _ _ [] hv2
  unfold recordedNew at hj
  unfold addFileVersion
  simp only [hc, if_neg hne, hun, hj]
  rfl

theorem addFileVersion_next (SHA256 : Str → Digest) (fs : Str → Option Str)
    (filename content : Str) (s : FileHistoryManager) (disk : Disk)
    (lastVersion : Nat) (last : FileVersion)
    (hfs : fs filename = some content) (hne : content ≠ [])
    (htr : mapFind s.fileHistoryMap filename = some lastVersion)
    (hlast : s.heap[lastVersion]? = some last)
    (hdiff : last.hash ≠ calculateFileHash SHA256 content) (hv : validPtrs s) :
    addFileVersion SHA256 fs filename s disk
      = some (recordedNext s filename (calculateFileHash SHA256 content) content
          lastVersion last,
          saveToDisk
            (recordedNext s filename (calculateFileHash SHA256 content) content lastVersion last),
          Report.added (calculateFileHash SHA256 content)) := by
  have hc : readFileContent fs filename = content := by
    unfold readFileContent
    rw [hfs]
  have hv2 : validPtrs
      (recordedNext s filename (calculateFileHash SHA256 content) content lastVersion last) :=
    validPtrs_mapAssign s.heap _ s.fileHistoryMap s.hashMap _ filename hv (by simp)
  obtain ⟨j, hj⟩ := saveHistoryJson_isSome _ _ [] hv2
  unfold recordedNext at hj
  unfold addFileVersion
  simp only [hc, if_neg hne, htr, hlast, if_neg hdiff, hj]
  rfl

theorem recordedNext_heap_old (s : FileHistoryManager) (filename newHash content : Str)
    (p : Nat) (last : FileVersion) (hp : p < s.heap.length) :
    (recordedNext s filename newHash content p last).heap.length = s.heap.length + 1 ∧
      (recordedNext s filename newHash content p last).heap[s.heap.length]?
        = some ⟨newHash, some p, none⟩ ∧
      (recordedNext s filename newHash content p last).heap[p]?
        = some { last with next := some s.heap.length } ∧
      ∀ a, a ≠ p → a < s.heap.length →
        (recordedNext s filename newHash content p last).heap[a]? = s.heap[a]? := by
  unfold recordedNext
  refine ⟨by simp, ?_, ?_, ?_⟩
  · show (s.heap.set p _ ++ [_])[s.heap.length]? = _
    rw [List.getElem?_append_right (by simp)]
    simp [newFileVersion]
  · show (s.heap.set p _ ++ [_])[p]? = _
    rw [List.getElem?_append_left (by simpa using hp), List.getElem?_set, if_pos rfl, if_pos hp]
  · intro a hap ha
    show (s.heap.set p _ ++ [_])[a]? = _
    rw [List.getElem?_append_left (by simpa using ha), List.getElem?_set,
      if_neg (fun e => hap e.symm)]

/-- C6. A tracked path whose file holds non-empty content with a digest other
than the latest one: `addFileVersion` appends exactly one node to the chain of
the path. The new node holds the new digest, its `prev` is the old tail, the
`next` of the old tail is the new node, the index maps the path to the new node,
`getLatestHash` gives the new digest, the chain has one node more, and the
index entries and chains of the other paths are as they were. -/
theorem addFileVersion_appends (SHA256 : Str → Digest) (fs : Str → Option Str)
    (filename content : Str) (s : FileHistoryManager) (disk : Disk) (p : Nat)
    (hfs : fs filename = some content) (hne : content ≠ [])
    (htr : mapFind s.fileHistoryMap filename = some p)
    (hdiff : getLatestHash s filename ≠ some (calculateFileHash SHA256 content))
    (hv : validPtrs s) (hprev : prevOlder s.heap) :
    ∃ s' disk' last,
      addFileVersion SHA256 fs filename s disk
        = some (s', disk', Report.added (calculateFileHash SHA256 content)) ∧
      s.heap[p]? = some last ∧
      s'.heap.length = s.heap.length + 1 ∧
      mapFind s'.fileHistoryMap filename = some s.heap.length ∧
      s'.heap[s.heap.length]? = some ⟨calculateFileHash SHA256 content, some p, none⟩ ∧
      s'.heap[p]? = some { last with next := some s.heap.length } ∧
      (∀ a, a ≠ p → a < s.heap.length → s'.heap[a]? = s.heap[a]?) ∧
      getLatestHash s' filename = some (calculateFileHash SHA256 content) ∧
      chainOf s' filename = s.heap.length :: chainOf s filename ∧
      (chainOf s' filename).length = (chainOf s filename).length + 1 ∧
      ∀ other, other ≠ filename →
        mapFind s'.fileHistoryMap other = mapFind s.fileHistoryMap other ∧
          chainOf s' other = chainOf s other := by
  have hp : p < s.heap.length := hv (filename, p) (mem_of_mapFind filename p _ htr)
  have hlast : s.heap[p]? = some s.heap[p] := List.getElem?_eq_getElem hp
  have hd : s.heap[p].hash ≠ calculateFileHash SHA256 content := by
    intro e
    apply hdiff
    unfold getLatestHash
    rw [htr]
    simp only [hlast, Option.map_some', e]
  have hadd := addFileVersion_next SHA256 fs filename content s disk p s.heap[p]
    hfs hne htr hlast hd hv
  obtain ⟨h1, h2, h3, h4⟩ := recordedNext_heap_old s filename
    (calculateFileHash SHA256 content) content p s.heap[p] hp
  have hmap : (recordedNext s filename (calculateFileHash SHA256 content) content p
      s.heap[p]).fileHistoryMap = mapAssign s.fileHistoryMap filename s.heap.length := rfl
  have hsame : ∀ (a : Nat) (node : FileVersion), s.heap[a]? = some node →
      ∃ node' : FileVersion, (recordedNext s filename (calculateFileHash SHA256 content) content
        p s.heap[p]).heap[a]? = some node' ∧ node'.prev = node.prev := by
    intro a node ha
    have halt : a < s.heap.length := by
      by_contra hge
      rw [List.getElem?_eq_none (Nat.le_of_not_lt hge)] at ha
      cases ha
    by_cases hap : a = p
    · subst hap
      rw [hlast] at ha
      cases ha
      exact ⟨_, h3, rfl⟩
    · exact ⟨node, by rw [h4 a hap halt, ha], rfl⟩
  have hchain : chainOf (recordedNext s filename (calculateFileHash SHA256 content) content p
      s.heap[p]) filename = s.heap.length :: chainOf s filename := by
    unfold chainOf
    rw [hmap, mapFind_mapAssign_self, h1, chainNodes, h2, htr]
    simp only []
    rw [chainNodes_congr hprev hsame _ p hp]
  refine ⟨_, _, s.heap[p], hadd, hlast, h1, ?_, h2, h3, h4, ?_, hchain, ?_, ?_⟩
  · rw [hmap, mapFind_mapAssign_self]
  · unfold getLatestHash
    rw [hmap, mapFind_mapAssign_self]
    simp only [h2, Option.map_some']
  · rw [hchain, List.length_cons]
  · intro other hother
    have hfind : mapFind (recordedNext s filename (calculateFileHash SHA256 content) content p
        s.heap[p]).fileHistoryMap other = mapFind s.fileHistoryMap other := by
      rw [hmap, mapFind_mapAssign_ne _ _ _ _ (fun e => hother e.symm)]
    refine ⟨hfind, ?_⟩
    unfold chainOf
    rw [hfind, h1]
    cases ho : mapFind s.fileHistoryMap other with
    | none => rw [chainNodes_none, chainNodes_none]
    | some q =>
      have hq : q < s.heap.length := hv (other, q) (mem_of_mapFind other q _ ho)
      rw [chainNodes_congr hprev hsame _ q hq,
        chainNodes_fuel hprev (s.heap.length + 1) s.heap.length q (by omega) hq]

theorem addFileVersion_appends_witness :
    (fun _ : Str => some abc) aTxt = some abc ∧ abc ≠ [] ∧
      mapFind helloManager.fileHistoryMap aTxt = some 0 ∧
      getLatestHash helloManager aTxt ≠ some (calculateFileHash (fun _ => sha256_abc) abc) ∧
      validPtrs helloManager ∧ prevOlder helloManager.heap ∧
      ∃ s' disk' last,
        addFileVersion (fun _ => sha256_abc) (fun _ => some abc) aTxt helloManager ⟨none, none⟩
          = some (s', disk', Report.added (calculateFileHash (fun _ => sha256_abc) abc)) ∧
        helloManager.heap[0]? = some last ∧
        s'.heap.length = helloManager.heap.length + 1 ∧
        mapFind s'.fileHistoryMap aTxt = some helloManager.heap.length ∧
        s'.heap[helloManager.heap.length]?
          = some ⟨calculateFileHash (fun _ => sha256_abc) abc, some 0, none⟩ ∧
        s'.heap[0]? = some { last with next := some helloManager.heap.length } ∧
        (∀ a, a ≠ 0 → a < helloManager.heap.length → s'.heap[a]? = helloManager.heap[a]?) ∧
        getLatestHash s' aTxt = some (calculateFileHash (fun _ => sha256_abc) abc) ∧
        chainOf s' aTxt = helloManager.heap.length :: chainOf helloManager aTxt ∧
        (chainOf s' aTxt).length = (chainOf helloManager aTxt).length + 1 ∧
        ∀ other, other ≠ aTxt →
          mapFind s'.fileHistoryMap other = mapFind helloManager.fileHistoryMap other ∧
            chainOf s' other = chainOf helloManager other :=
  ⟨rfl, by decide, by decide, by decide, by decide, by decide,
    addFileVersion_appends (fun _ => sha256_abc) (fun _ => some abc) aTxt abc helloManager
      ⟨none, none⟩ 0 rfl (by decide) (by decide) (by decide) (by decide) (by decide)⟩

theorem recordedNew_heap (s : FileHistoryManager) (filename newHash content : Str) :
    (recordedNew s filename newHash content).heap[s.heap.length]?
      = some (newFileVersion newHash) := by
  show (s.heap ++ [newFileVersion newHash])[s.heap.length]? = _
  rw [List.getElem?_append_right (le_refl _)]
  simp

/-- C7. When `addFileVersion` records non-empty content (the path is untracked,
or its latest digest is another one), the keys of the content store become the
old keys and the new digest: the number of entries is unchanged when the digest
was a key already and grows by one when it was not, and a store without
duplicate keys stays so. For an untracked path one node without links is
allocated and becomes the chain of the path. -/
theorem addFileVersion_store (SHA256 : Str → Digest) (fs : Str → Option Str)
    (filename content : Str) (s : FileHistoryManager) (disk : Disk)
    (hfs : fs filename = some content) (hne : content ≠ [])
    (hrec : mapFind s.fileHistoryMap filename = none ∨
      getLatestHash s filename ≠ some (calculateFileHash SHA256 content))
    (hv : validPtrs s) :
    ∃ s' disk',
      addFileVersion SHA256 fs filename s disk
        = some (s', disk', Report.added (calculateFileHash SHA256 content)) ∧
      (∀ k, k ∈ s'.hashMap.map Prod.fst ↔
        k ∈ s.hashMap.map Prod.fst ∨ k = calculateFileHash SHA256 content) ∧
      (calculateFileHash SHA256 content ∈ s.hashMap.map Prod.fst →
        s'.hashMap.length = s.hashMap.length) ∧
      (calculateFileHash SHA256 content ∉ s.hashMap.map Prod.fst →
        s'.hashMap.length = s.hashMap.length + 1) ∧
      (keysNodup s.hashMap → keysNodup s'.hashMap) ∧
      (mapFind s.fileHistoryMap filename = none →
        s'.heap = s.heap ++ [newFileVersion (calculateFileHash SHA256 content)] ∧
          mapFind s'.fileHistoryMap filename = some s.heap.length ∧
          s'.fileHistoryMap.length = s.fileHistoryMap.length + 1 ∧
          chainOf s' filename = [s.heap.length]) := by
  have key : ∀ s' : FileHistoryManager,
      s'.hashMap = mapAssign s.hashMap (calculateFileHash SHA256 content) content →
      (∀ k, k ∈ s'.hashMap.map Prod.fst ↔
        k ∈ s.hashMap.map Prod.fst ∨ k = calculateFileHash SHA256 content) ∧
      (calculateFileHash SHA256 content ∈ s.hashMap.map Prod.fst →
        s'.hashMap.length = s.hashMap.length) ∧
      (calculateFileHash SHA256 content ∉ s.hashMap.map Prod.fst →
        s'.hashMap.length = s.hashMap.length + 1) ∧
      (keysNodup s.hashMap → keysNodup s'.hashMap) := by
    intro s' hs'
    rw [hs']
    refine ⟨?_, ?_, ?_, keysNodup_mapAssign _ _ _⟩
    · intro k
      rw [mem_keys_mapAssign]
      exact Or.comm
    · intro hmem
      rw [mapAssign_length, if_pos ((mapFind_isSome_iff_mem_keys _ _).mpr hmem)]
    · intro hmem
      rw [mapAssign_length, if_neg (fun h => hmem ((mapFind_isSome_iff_mem_keys _ _).mp h))]
  cases htr : mapFind s.fileHistoryMap filename with
  | none =>
    have hadd := addFileVersion_new SHA256 fs filename content s disk hfs hne htr hv
    obtain ⟨k1, k2, k3, k4⟩ := key _ (rfl : (recordedNew s filename
      (calculateFileHash SHA256 content) content).hashMap = _)
    refine ⟨_, _, hadd, k1, k2, k3, k4, ?_⟩
    intro _
    have hfind : mapFind (recordedNew s filename (calculateFileHash SHA256 content)
        content).fileHistoryMap filename = some s.heap.length := mapFind_mapAssign_self _ _ _
    refine ⟨rfl, hfind, ?_, ?_⟩
    · show (mapAssign s.fileHistoryMap filename s.heap.length).length = _
      rw [mapAssign_length, htr]
      rfl
    · unfold chainOf
      rw [hfind]
      exact chainNodes_single _ _ _ (recordedNew_heap s filename _ content)
  | some p =>
    have hp : p < s.heap.length := hv (filename, p) (mem_of_mapFind filename p _ htr)
    have hlast : s.heap[p]? = some s.heap[p] := List.getElem?_eq_getElem hp
    have hdiff : getLatestHash s filename ≠ some (calculateFileHash SHA256 content) := by
      rcases hrec with h | h
      · rw [htr] at h
        cases h
      · exact h
    have hd : s.heap[p].hash ≠ calculateFileHash SHA256 content := by
      intro e
      apply hdiff
      unfold getLatestHash
      rw [htr]
      simp only [hlast, Option.map_some', e]
    have hadd := addFileVersion_next SHA256 fs filename content s disk p
      s.heap[p] hfs hne htr hlast hd hv
    obtain ⟨k1, k2, k3, k4⟩ := key _ (rfl : (recordedNext s filename
      (calculateFileHash SHA256 content) content p s.heap[p]).hashMap = _)
    refine ⟨_, _, hadd, k1, k2, k3, k4, ?_⟩
    intro h
    cases h

theorem addFileVersion_store_witness :
    (fun _ : Str => some hello) bTxt = some hello ∧ hello ≠ [] ∧
      (mapFind helloManager.fileHistoryMap bTxt = none ∨
        getLatestHash helloManager bTxt
          ≠ some (calculateFileHash (fun _ => sha256_hello) hello)) ∧
      validPtrs helloManager ∧
      ∃ s' disk',
        addFileVersion (fun _ => sha256_hello) (fun _ => some hello) bTxt helloManager
            ⟨none, none⟩
          = some (s', disk', Report.added (calculateFileHash (fun _ => sha256_hello) hello)) ∧
        (∀ k, k ∈ s'.hashMap.map Prod.fst ↔
          k ∈ helloManager.hashMap.map Prod.fst
            ∨ k = calculateFileHash (fun _ => sha256_hello) hello) ∧
        (calculateFileHash (fun _ => sha256_hello) hello ∈ helloManager.hashMap.map Prod.fst →
          s'.hashMap.length = helloManager.hashMap.length) ∧
        (calculateFileHash (fun _ => sha256_hello) hello ∉ helloManager.hashMap.map Prod.fst →
          s'.hashMap.length = helloManager.hashMap.length + 1) ∧
        (keysNodup helloManager.hashMap → keysNodup s'.hashMap) ∧
        (mapFind helloManager.fileHistoryMap bTxt = none →
          s'.heap = helloManager.heap
              ++ [newFileVersion (calculateFileHash (fun _ => sha256_hello) hello)] ∧
            mapFind s'.fileHistoryMap bTxt = some helloManager.heap.length ∧
            s'.fileHistoryMap.length = helloManager.fileHistoryMap.length + 1 ∧
            chainOf s' bTxt = [helloManager.heap.length]) :=
  ⟨rfl, by decide, Or.inl (by decide), by decide,
    addFileVersion_store (fun _ => sha256_hello) (fun _ => some hello) bTxt hello helloManager
      ⟨none, none⟩ rfl (by decide) (Or.inl (by decide)) (by decide)⟩

/-- C8. When the file reads as empty (zero bytes, or it cannot be opened),
`addFileVersion` reports the failure and changes nothing: the manager (index,
nodes, content store) and both record files are as they were. -/
theorem addFileVersion_empty (SHA256 : Str → Digest) (fs : Str → Option Str) (filename : Str)
    (s : FileHistoryManager) (disk : Disk) (h : fs filename = none ∨ fs filename = some []) :
    readFileContent fs filename = [] ∧
      addFileVersion SHA256 fs filename s disk = some (s, some disk, Report.noContent) := by
  have hc : readFileContent fs filename = [] := by
    unfold readFileContent
    rcases h with h | h <;> rw [h]
  refine ⟨hc, ?_⟩
  unfold addFileVersion
  simp only [hc, if_true]

theorem addFileVersion_empty_witness :
    ((fun _ : Str => (none : Option Str)) aTxt = none ∨
        (fun _ : Str => (none : Option Str)) aTxt = some []) ∧
      (readFileContent (fun _ => none) aTxt = [] ∧
        addFileVersion (fun _ => sha256_hello) (fun _ => none) aTxt helloManager ⟨none, none⟩
          = some (helloManager, some ⟨none, none⟩, Report.noContent)) :=
  ⟨Or.inl rfl,
    addFileVersion_empty (fun _ => sha256_hello) (fun _ => none) aTxt helloManager ⟨none, none⟩
      (Or.inl rfl)⟩

/-- C5. When the path is tracked and its latest digest is the digest of the
(non-empty) content of the file, `addFileVersion` is a no-op: the manager
(index, nodes and their links, content store) and both record files are as they
were, and "no changes" is reported. -/
theorem addFileVersion_unchanged (SHA256 : Str → Digest) (fs : Str → Option Str)
    (filename content : Str) (s : FileHistoryManager) (disk : Disk)
    (hfs : fs filename = some content) (hne : content ≠ [])
    (htracked : (mapFind s.fileHistoryMap filename).isSome)
    (hlatest : getLatestHash s filename = some (calculateFileHash SHA256 content)) :
    addFileVersion SHA256 fs filename s disk = some (s, some disk, Report.noChanges) := by
  have hc : readFileContent fs filename = content := by
    unfold readFileContent
    rw [hfs]
  obtain ⟨p, hp⟩ := Option.isSome_iff_exists.mp htracked
  unfold getLatestHash at hlatest
  rw [hp] at hlatest
  simp only [Option.map_eq_some'] at hlatest
  obtain ⟨node, hnode, hhash⟩ := hlatest
  unfold addFileVersion
  simp only [hc, if_neg hne, hp, hnode, hhash, if_true]

theorem addFileVersion_unchanged_witness :
    (fun _ : Str => some hello) aTxt = some hello ∧ hello ≠ [] ∧
      (mapFind helloManager.fileHistoryMap aTxt).isSome ∧
      getLatestHash helloManager aTxt = some (calculateFileHash (fun _ => sha256_hello) hello) ∧
      addFileVersion (fun _ => sha256_hello) (fun _ => some hello) aTxt helloManager ⟨none, none⟩
        = some (helloManager, some ⟨none, none⟩, Report.noChanges) :=
  ⟨rfl, by decide, by decide, by decide,
    addFileVersion_unchanged (fun _ => sha256_hello) (fun _ => some hello) aTxt hello
      helloManager ⟨none, none⟩ rfl (by decide) (by decide) (by decide)⟩

/-! ## Saving and loading the content record -/

theorem saveHashMapJson_spec : ∀ (m : List (Str × Str)) (j : Json), keysNodup m →
    jsonSorted j →
      jsonSorted (saveHashMapJson m j) ∧
        ∀ k, mapFind (saveHashMapJson m j) k
          = match mapFind m k with
            | some content => some content
            | none => mapFind j k
  | [], j, _, hj => by
    refine ⟨hj, ?_⟩
    intro k
    simp [mapFind, saveHashMapJson]
  | (d, c) :: m, j, hm, hj => by
    unfold keysNodup at hm
    rw [List.map_cons, List.nodup_cons] at hm
    obtain ⟨hnd, hfind⟩ := saveHashMapJson_spec m (jsonAssign j d c) hm.2
      (jsonSorted_jsonAssign _ _ _ hj)
    rw [saveHashMapJson]
    refine ⟨hnd, ?_⟩
    intro k
    rw [hfind k, mapFind]
    by_cases hk : d = k
    · subst hk
      rw [if_pos rfl, mapFind_eq_none_of_not_mem d m hm.1]
      simp only []
      rw [mapFind_jsonAssign, if_pos rfl]
    · rw [if_neg hk]
      cases hmk : mapFind m k with
      | none =>
        simp only []
        rw [mapFind_jsonAssign, if_neg hk]
      | some c' => rfl

theorem loadHashMap_spec : ∀ (entries : Json) (s : FileHistoryManager), keysNodup entries →
    ∀ k, mapFind (loadHashMap entries s).hashMap k
      = match mapFind entries k with
        | some encodedContent => some (base64_decode encodedContent)
        | none => mapFind s.hashMap k
  | [], s, _ => by
    intro k
    simp [mapFind, loadHashMap]
  | (d, c) :: entries, s, hnd => by
    unfold keysNodup at hnd
    rw [List.map_cons, List.nodup_cons] at hnd
    intro k
    have ih := loadHashMap_spec entries
      { s with hashMap := mapAssign s.hashMap d (base64_decode c) } hnd.2 k
    rw [loadHashMap, ih, mapFind]
    by_cases hk : d = k
    · subst hk
      rw [if_pos rfl, mapFind_eq_none_of_not_mem d entries hnd.1]
      simp only []
      rw [mapFind_mapAssign_self]
    · rw [if_neg hk]
      cases hmk : mapFind entries k with
      | none =>
        simp only []
        rw [mapFind_mapAssign_ne _ _ _ _ hk]
      | some c' => rfl

theorem loadHistory_hashMap : ∀ (entries : Json) (s : FileHistoryManager),
    (loadHistory entries s).hashMap = s.hashMap
  | [], _ => rfl
  | (f, h) :: entries, s => by
    rw [loadHistory]
    exact loadHistory_hashMap entries _

/-- What a save followed by a load into an empty manager does to the content
store: every stored content comes back passed through `base64_decode`. -/
theorem saveToDisk_loadFromDisk_content (s : FileHistoryManager) (hv : validPtrs s)
    (hnd : keysNodup s.hashMap) (ht : textOnly s = true) :
    ∃ disk, saveToDisk s = some disk ∧
      ∀ d, mapFind (loadFromDisk disk emptyManager).hashMap d
        = (mapFind s.hashMap d).map base64_decode := by
  obtain ⟨j, hj⟩ := saveHistoryJson_isSome s.heap s.fileHistoryMap [] hv
  obtain ⟨hsorted, hfind⟩ := saveHashMapJson_spec s.hashMap [] hnd (by simp [jsonSorted])
  have hnd2 := keysNodup_of_jsonSorted _ hsorted
  refine ⟨⟨some j, some (saveHashMapJson s.hashMap [])⟩, saveToDisk_text s j hj ht, ?_⟩
  · intro d
    show mapFind (loadHashMap (saveHashMapJson s.hashMap []) (loadHistory j emptyManager)).hashMap d
      = _
    rw [loadHashMap_spec _ _ hnd2 d, hfind d]
    have hempty : (loadHistory j emptyManager).hashMap = [] :=
      loadHistory_hashMap j emptyManager
    cases hd : mapFind s.hashMap d with
    | none =>
      simp only [Option.map_none']
      rw [hempty]
      rfl
    | some c => rfl

/-- A store that holds a content which is not valid UTF-8 cannot be saved:
`saveToDisk` puts the raw content into the content object (line 102), and
`dump(4)` throws on it. -/
theorem saveToDisk_binary_content (s : FileHistoryManager) (hnd : keysNodup s.hashMap)
    (d content : Str) (hd : mapFind s.hashMap d = some content)
    (hbin : validUtf8 content = false) : saveToDisk s = none := by
  unfold saveToDisk
  cases hj : saveHistoryJson s.heap s.fileHistoryMap [] with
  | none => rfl
  | some j =>
    obtain ⟨_, hfind⟩ := saveHashMapJson_spec s.hashMap [] hnd (by simp [jsonSorted])
    have hmem : (d, content) ∈ saveHashMapJson s.hashMap [] := by
      apply mem_of_mapFind
      rw [hfind d, hd]
    have hno : dumps (saveHashMapJson s.hashMap []) = false := by
      rw [Bool.eq_false_iff]
      intro h
      have hc := ((dumps_iff _).mp h (d, content) hmem).2
      rw [hbin] at hc
      cases hc
    simp only [hno, Bool.and_false, Bool.false_eq_true, if_false]

/-- Recording `a.txt`, which holds the two bytes `FF FE`, in an empty manager:
the index and the store are updated, then `saveToDisk` throws, and no records
are left. -/
theorem addFileVersion_binary_content :
    addFileVersion (fun _ => sha256_binary) (fun _ => some binaryContent) aTxt emptyManager
        ⟨none, none⟩
      = some (binaryManager, none,
          Report.added (calculateFileHash (fun _ => sha256_binary) binaryContent)) ∧
      validUtf8 binaryContent = false ∧
      saveToDisk binaryManager = none := by
  refine ⟨by decide, by decide, by decide⟩

/-! ## The decoder shortens its input -/

theorem decodeLoop_length : ∀ (enc : Str) (val valb : Int) (dec : Str), -8 ≤ valb →
    8 * ((base64_decodeLoop enc val valb dec).length : Int)
      ≤ 8 * (dec.length : Int) + (valb + 8) + 6 * (enc.length : Int)
  | [], val, valb, dec, h => by
    simp only [base64_decodeLoop, List.length_nil]
    omega
  | c :: enc, val, valb, dec, h => by
    rw [base64_decodeLoop]
    split
    · simp only [List.length_cons]
      push_cast
      omega
    · simp only []
      split
      · rename_i hge
        have ih := decodeLoop_length enc (add32 (shl32 val 6) (tableAt c)) (valb + 6 - 8)
          (dec ++ [toChar (shr32 (add32 (shl32 val 6) (tableAt c)) (valb + 6))]) (by omega)
        simp only [List.length_append, List.length_cons, List.length_nil] at ih ⊢
        push_cast at ih ⊢
        omega
      · have ih := decodeLoop_length enc (add32 (shl32 val 6) (tableAt c)) (valb + 6) dec
          (by omega)
        simp only [List.length_cons]
        push_cast
        omega

theorem base64_decode_length (enc : Str) : 4 * (base64_decode enc).length ≤ 3 * enc.length := by
  have h := decodeLoop_length enc 0 (-8) [] (le_refl _)
  unfold base64_decode
  simp only [List.length_nil] at h
  omega

/-- No non-empty text is its own decoding. -/
theorem base64_decode_ne_self (content : Str) (h : content ≠ []) :
    base64_decode content ≠ content := by
  intro e
  have hl := base64_decode_length content
  rw [e] at hl
  have hpos : 0 < content.length := List.length_pos.mpr h
  omega

/-- C2 (at the failing input). The manager that stores `hello` under its
digest is saved and then loaded into an empty manager: the content record holds
the raw text `hello`, `loadFromDisk` decodes it as Base64, and the content that
comes back under the digest is the three bytes `85 e9 65`. -/
theorem saveToDisk_loadFromDisk_hello :
    mapFind helloManager.hashMap (hexRender sha256_hello.val) = some hello ∧
      saveToDisk helloManager
        = some ⟨some [(aTxt, hexRender sha256_hello.val)],
                some [(hexRender sha256_hello.val, hello)]⟩ ∧
      mapFind
          (loadFromDisk
            ⟨some [(aTxt, hexRender sha256_hello.val)],
             some [(hexRender sha256_hello.val, hello)]⟩ emptyManager).hashMap
          (hexRender sha256_hello.val)
        = some [0x85, 0xe9, 0x65] := by
  refine ⟨by decide, by decide, by decide⟩

/-- Every non-empty content of a well-formed store of valid UTF-8 strings comes
back changed. -/
theorem saveToDisk_loadFromDisk_content_differs (s : FileHistoryManager) (hv : validPtrs s)
    (hnd : keysNodup s.hashMap) (ht : textOnly s = true) (d content : Str)
    (hd : mapFind s.hashMap d = some content) (hne : content ≠ []) :
    ∃ disk, saveToDisk s = some disk ∧
      mapFind (loadFromDisk disk emptyManager).hashMap d ≠ some content := by
  obtain ⟨disk, hsave, hload⟩ := saveToDisk_loadFromDisk_content s hv hnd ht
  refine ⟨disk, hsave, ?_⟩
  rw [hload d, hd]
  intro e
  exact base64_decode_ne_self content hne (Option.some.inj e)

/-! ## Modification status (`isFileModified`) -/

/-- C9 (as stated, at an empty file). `a.txt` is empty and untracked:
`addFileVersion` rejects it and records nothing, and `isFileModified` then
compares the empty latest digest with the digest text of the empty content and
answers `true`. -/
theorem isFileModified_after_add_empty_file :
    addFileVersion (fun _ => sha256_empty) (fun _ => some []) aTxt emptyManager ⟨none, none⟩
        = some (emptyManager, some ⟨none, none⟩, Report.noContent) ∧
      isFileModified (fun _ => sha256_empty) (fun _ => some []) emptyManager aTxt
        = some true := by
  constructor
  · rfl
  · decide

/-- C9 (amended). For non-empty content, `isFileModified` answers `false` right
after `addFileVersion` ran on the same file content, whichever branch
`addFileVersion` took (new path, changed content, unchanged content). -/
theorem isFileModified_after_add (SHA256 : Str → Digest) (fs : Str → Option Str)
    (filename content : Str) (s : FileHistoryManager) (disk : Disk)
    (hfs : fs filename = some content) (hne : content ≠ []) (hv : validPtrs s) :
    ∃ s' disk' report,
      addFileVersion SHA256 fs filename s disk = some (s', disk', report) ∧
        isFileModified SHA256 fs s' filename = some false := by
  have hc : readFileContent fs filename = content := by
    unfold readFileContent
    rw [hfs]
  have hmod : ∀ s' : FileHistoryManager,
      getLatestHash s' filename = some (calculateFileHash SHA256 content) →
      isFileModified SHA256 fs s' filename = some false := by
    intro s' hs'
    unfold isFileModified
    simp only [hc, hs', Option.map_some', ne_eq, not_true_eq_false, decide_False]
  cases htr : mapFind s.fileHistoryMap filename with
  | none =>
    have hadd := addFileVersion_new SHA256 fs filename content s disk hfs hne htr hv
    refine ⟨_, _, _, hadd, hmod _ ?_⟩
    unfold getLatestHash
    have hfind : mapFind (recordedNew s filename (calculateFileHash SHA256 content)
        content).fileHistoryMap filename = some s.heap.length := mapFind_mapAssign_self _ _ _
    rw [hfind]
    simp only [recordedNew_heap, Option.map_some']
    rfl
  | some p =>
    have hp : p < s.heap.length := hv (filename, p) (mem_of_mapFind filename p _ htr)
    have hlast : s.heap[p]? = some s.heap[p] := List.getElem?_eq_getElem hp
    by_cases hd : s.heap[p].hash = calculateFileHash SHA256 content
    · have hl : getLatestHash s filename = some (calculateFileHash SHA256 content) := by
        unfold getLatestHash
        rw [htr]
        simp only [hlast, Option.map_some', hd]
      refine ⟨s, disk, Report.noChanges, ?_, hmod s hl⟩
      unfold addFileVersion
      simp only [hc, if_neg hne, htr, hlast, hd, if_true]
    · have hadd := addFileVersion_next SHA256 fs filename content s disk p
        s.heap[p] hfs hne htr hlast hd hv
      obtain ⟨_, h2, _, _⟩ := recordedNext_heap_old s filename
        (calculateFileHash SHA256 content) content p s.heap[p] hp
      refine ⟨_, _, _, hadd, hmod _ ?_⟩
      unfold getLatestHash
      have hfind : mapFind (recordedNext s filename (calculateFileHash SHA256 content)
          content p s.heap[p]).fileHistoryMap filename = some s.heap.length :=
        mapFind_mapAssign_self _ _ _
      rw [hfind]
      simp only [h2, Option.map_some']

theorem isFileModified_after_add_witness :
    (fun _ : Str => some hello) aTxt = some hello ∧ hello ≠ [] ∧ validPtrs helloManager ∧
      ∃ s' disk' report,
        addFileVersion (fun _ => sha256_hello) (fun _ => some hello) aTxt helloManager
            ⟨none, none⟩ = some (s', disk', report) ∧
          isFileModified (fun _ => sha256_hello) (fun _ => some hello) s' aTxt = some false :=
  ⟨rfl, by decide, by decide,
    isFileModified_after_add (fun _ => sha256_hello) (fun _ => some hello) aTxt hello
      helloManager ⟨none, none⟩ rfl (by decide) (by decide)⟩

/-! ## The scan of `initializeRepo` -/

theorem initializeRepoLoop_eq (SHA256 : Str → Digest) (fs : Str → Option Str) :
    ∀ (listing : List DirEntry) (st : FileHistoryManager × Json × Json),
      initializeRepoLoop SHA256 fs listing st
        = (scanned fs listing).foldl (registerFile SHA256) st
  | [], st => rfl
  | entry :: entries, st => by
    have ih := initializeRepoLoop_eq SHA256 fs entries
    rw [initializeRepoLoop]
    by_cases h1 : entry.isRegular = true
    · rw [if_pos h1]
      simp only []
      by_cases h2 : strContains (dotSlash ++ entry.name) vcsDir = true
      · rw [if_pos h2, ih]
        have hs : isScanned fs entry = false := by simp [isScanned, h2]
        simp [scanned, List.filter_cons, hs]
      · rw [if_neg h2]
        by_cases h3 : readFileContent fs (dotSlash ++ entry.name) = []
        · rw [if_pos h3, ih]
          have hs : isScanned fs entry = false := by simp [isScanned, h3]
          simp [scanned, List.filter_cons, hs]
        · rw [if_neg h3, ih]
          have hs : isScanned fs entry = true := by simp [isScanned, h1, h2, h3]
          simp only [scanned, List.filter_cons, hs, if_true, List.map_cons, List.foldl_cons]
          rfl
    · rw [if_neg h1, ih]
      have hs : isScanned fs entry = false := by simp [isScanned, h1]
      simp [scanned, List.filter_cons, hs]

/-! ## The shape of the encoder's output -/

theorem sextet_mem : ∀ n : Nat, n < 64 → sextet n ∈ base64_chars := by
  decide

theorem padChar_not_mem : padChar ∉ base64_chars := by
  decide

theorem encode_shape_aux : ∀ (data : Str) (v : Int) (enc : Str), enc.length % 4 = 0 →
    ∃ body : Str,
      encodeTail (base64_encodeLoop data v (-6) enc)
          = enc ++ (body ++ List.replicate ((3 - data.length % 3) % 3) padChar) ∧
        (∀ x ∈ body, x ∈ base64_chars) ∧
        body.length + (3 - data.length % 3) % 3 = 4 * ((data.length + 2) / 3)
  | [], v, enc, h => by
    refine ⟨[], ?_, by simp, by simp⟩
    show base64_pad 3 enc = _
    rw [base64_pad_mod0 enc h]
    simp
  | [a], v, enc, h => by
    have ha := a.isLt
    refine ⟨[sextet (a.val / 4), sextet (a.val % 4 * 16)], ?_, ?_, by simp⟩
    · rw [encodeLoop_phase0]
      show base64_pad 3 ((enc ++ [sextet (a.val / 4)])
        ++ [charAt (shr32 (shl32 (encAcc v a) 8) 4)]) = _
      rw [charAt_of_mod (enc_idx_tail_one v a), base64_pad_mod2]
      · simp [List.replicate]
      · simp only [List.length_append, List.length_singleton]
        omega
    · intro x hx
      simp only [List.mem_cons, List.mem_singleton, List.not_mem_nil, or_false] at hx
      rcases hx with hx | hx <;> rw [hx] <;> exact sextet_mem _ (by omega)
  | [a, b], v, enc, h => by
    have ha := a.isLt
    have hb := b.isLt
    refine ⟨[sextet (a.val / 4), sextet (a.val % 4 * 16 + b.val / 16),
      sextet (b.val % 16 * 4)], ?_, ?_, by simp⟩
    · rw [encodeLoop_phase0, encodeLoop_phase1]
      show base64_pad 3 ((enc ++ [sextet (a.val / 4)] ++ [sextet (a.val % 4 * 16 + b.val / 16)])
        ++ [charAt (shr32 (shl32 (encAcc (encAcc v a) b) 8) 6)]) = _
      rw [charAt_of_mod (enc_idx_tail_two (encAcc v a) b), base64_pad_mod3]
      · simp [List.replicate]
      · simp only [List.length_append, List.length_singleton]
        omega
    · intro x hx
      simp only [List.mem_cons, List.mem_singleton, List.not_mem_nil, or_false] at hx
      rcases hx with hx | hx | hx <;> rw [hx] <;> exact sextet_mem _ (by omega)
  | a :: b :: c :: rest, v, enc, h => by
    have ha := a.isLt
    have hb := b.isLt
    have hc := c.isLt
    have hlen : (enc ++ [sextet (a.val / 4)] ++ [sextet (a.val % 4 * 16 + b.val / 16)]
        ++ [sextet (b.val % 16 * 4 + c.val / 64), sextet (c.val % 64)]).length % 4 = 0 := by
      simp only [List.length_append, List.length_singleton, List.length_cons, List.length_nil]
      omega
    obtain ⟨body, hbody, hmem, hcount⟩ :=
      encode_shape_aux rest (encAcc (encAcc (encAcc v a) b) c) _ hlen
    have hpad : (3 - (a :: b :: c :: rest).length % 3) % 3 = (3 - rest.length % 3) % 3 := by
      simp only [List.length_cons]
      omega
    refine ⟨sextet (a.val / 4) :: sextet (a.val % 4 * 16 + b.val / 16)
      :: sextet (b.val % 16 * 4 + c.val / 64) :: sextet (c.val % 64) :: body, ?_, ?_, ?_⟩
    · rw [encodeLoop_phase0, encodeLoop_phase1, encodeLoop_phase2, hbody, hpad]
      simp
    · intro x hx
      simp only [List.mem_cons] at hx
      rcases hx with hx | hx | hx | hx | hx
      · rw [hx]
        exact sextet_mem _ (by omega)
      · rw [hx]
        exact sextet_mem _ (by omega)
      · rw [hx]
        exact sextet_mem _ (by omega)
      · rw [hx]
        exact sextet_mem _ (by omega)
      · exact hmem x hx
    · rw [hpad]
      simp only [List.length_cons] at hcount ⊢
      omega

/-- C18. For a byte sequence `b` of length `n`, `base64_encode b` has
`4 * ceil(n / 3)` characters: characters of the 64-character alphabet, then
`(3 - n mod 3) mod 3` characters `=`, which is not in the alphabet and so occurs
nowhere before the padding. -/
theorem base64_encode_shape (b : Str) :
    ∃ body : Str,
      base64_encode b = body ++ List.replicate ((3 - b.length % 3) % 3) padChar ∧
        (∀ x ∈ body, x ∈ base64_chars) ∧
        (∀ x ∈ body, x ≠ padChar) ∧
        (base64_encode b).length = 4 * ((b.length + 2) / 3) := by
  obtain ⟨body, hbody, hmem, hcount⟩ := encode_shape_aux b 0 [] rfl
  rw [List.nil_append] at hbody
  refine ⟨body, ?_, hmem, ?_, ?_⟩
  · rw [base64_encode_eq, hbody]
  · intro x hx e
    rw [e] at hx
    exact padChar_not_mem (hmem padChar hx)
  · rw [base64_encode_eq, hbody, List.length_append, List.length_replicate]
    exact hcount

/-! ## The content record, untracked paths, colliding digest texts -/

/-- C11 (at the failing input). `initializeRepo` on a tree with `a.txt` holding
`hello` leaves the manager `helloManager` and writes `aGVsbG8=`, the Base64 text
of `hello`, under the digest; `saveToDisk` of this very manager writes the raw
text `hello` under the digest. -/
theorem saveToDisk_record_hello :
    initializeRepo (fun _ => sha256_hello) (fun _ => some hello) [⟨aTxt, true⟩] emptyManager
        = (helloManager,
            some ⟨some [(aTxt, hexRender sha256_hello.val)],
                  some [(hexRender sha256_hello.val, base64_encode hello)]⟩) ∧
      saveToDisk helloManager
        = some ⟨some [(aTxt, hexRender sha256_hello.val)],
                some [(hexRender sha256_hello.val, hello)]⟩ ∧
      base64_encode hello = [97, 71, 86, 115, 98, 71, 56, 61] ∧
      hello ≠ base64_encode hello := by
  refine ⟨by decide, by decide, by decide, by decide⟩

/-- C16. A path that is not in the index has the empty string as its latest
digest, and `isFileModified` answers `true` for it when the file holds
non-empty content. -/
theorem isFileModified_untracked (SHA256 : Str → Digest) (fs : Str → Option Str)
    (s : FileHistoryManager) (filename content : Str)
    (hun : mapFind s.fileHistoryMap filename = none) (hfs : fs filename = some content)
    (_hne : content ≠ []) :
    getLatestHash s filename = some [] ∧
      isFileModified SHA256 fs s filename = some true := by
  have hl : getLatestHash s filename = some [] := by
    unfold getLatestHash
    rw [hun]
  refine ⟨hl, ?_⟩
  have hc : readFileContent fs filename = content := by
    unfold readFileContent
    rw [hfs]
  unfold isFileModified
  simp only [hc, hl, Option.map_some']
  have hne := calculateFileHash_ne_nil SHA256 content
  simp only [ne_eq, decide_not, Option.some.injEq, Bool.not_eq_true', decide_eq_false_iff_not]
  exact fun e => hne e.symm

theorem isFileModified_untracked_witness :
    mapFind helloManager.fileHistoryMap bTxt = none ∧
      (fun _ : Str => some abc) bTxt = some abc ∧ abc ≠ [] ∧
      (getLatestHash helloManager bTxt = some [] ∧
        isFileModified (fun _ => sha256_abc) (fun _ => some abc) helloManager bTxt = some true) :=
  ⟨by decide, rfl, by decide,
    isFileModified_untracked (fun _ => sha256_abc) (fun _ => some abc) helloManager bTxt abc
      (by decide) rfl (by decide)⟩

/-- C17 (at the failing input). The digests `01 23 aa ... aa` and
`12 03 aa ... aa` differ, and the rendering loop writes the same text
`123aa...aa` for both. -/
theorem hexRender_collision :
    digest_01_23.val ≠ digest_12_03.val ∧
      hexRender digest_01_23.val = hexRender digest_12_03.val := by
  constructor <;> decide

/-! ## What `addFileVersion` leaves in memory -/

/-- With valid pointers `addFileVersion` dereferences only addresses of nodes,
and it leaves the state as it was or one of the two recorded states. -/
theorem addFileVersion_result (SHA256 : Str → Digest) (fs : Str → Option Str)
    (filename : Str) (s : FileHistoryManager) (disk : Disk) (hv : validPtrs s) :
    ∃ s' disk' report,
      addFileVersion SHA256 fs filename s disk = some (s', disk', report) ∧
        (s' = s ∨
          (mapFind s.fileHistoryMap filename = none ∧
            s' = recordedNew s filename
              (calculateFileHash SHA256 (readFileContent fs filename))
              (readFileContent fs filename)) ∨
          ∃ p last, mapFind s.fileHistoryMap filename = some p ∧ s.heap[p]? = some last ∧
            s' = recordedNext s filename
              (calculateFileHash SHA256 (readFileContent fs filename))
              (readFileContent fs filename) p last) := by
  cases hfs : fs filename with
  | none =>
    have hc : readFileContent fs filename = [] := by
      unfold readFileContent
      rw [hfs]
    refine ⟨s, disk, Report.noContent, ?_, Or.inl rfl⟩
    unfold addFileVersion
    simp only [hc, if_true]
  | some content =>
    have hc : readFileContent fs filename = content := by
      unfold readFileContent
      rw [hfs]
    rw [hc]
    by_cases hne : content = []
    · refine ⟨s, disk, Report.noContent, ?_, Or.inl rfl⟩
      unfold addFileVersion
      simp only [hc, hne, if_true]
    · cases htr : mapFind s.fileHistoryMap filename with
      | none =>
        have hadd :=
          addFileVersion_new SHA256 fs filename content s disk hfs hne htr hv
        exact ⟨_, _, _, hadd, Or.inr (Or.inl ⟨rfl, rfl⟩)⟩
      | some p =>
        have hp : p < s.heap.length := hv (filename, p) (mem_of_mapFind filename p _ htr)
        have hlast : s.heap[p]? = some s.heap[p] := List.getElem?_eq_getElem hp
        by_cases hd : s.heap[p].hash = calculateFileHash SHA256 content
        · refine ⟨s, disk, Report.noChanges, ?_, Or.inl rfl⟩
          unfold addFileVersion
          simp only [hc, if_neg hne, htr, hlast, hd, if_true]
        · have hadd := addFileVersion_next SHA256 fs filename content s disk p
            s.heap[p] hfs hne htr hlast hd hv
          exact ⟨_, _, _, hadd, Or.inr (Or.inr ⟨p, s.heap[p], rfl, hlast, rfl⟩)⟩

theorem mapAssign_same {V : Type} (k : Str) (v : V) :
    ∀ m : List (Str × V), mapFind m k = some v → mapAssign m k v = m
  | [] => by
    intro h
    simp [mapFind] at h
  | (k0, v0) :: m => by
    intro h
    rw [mapFind] at h
    by_cases h0 : k0 = k
    · rw [if_pos h0] at h
      cases h
      rw [mapAssign, if_pos h0, h0]
    · rw [if_neg h0] at h
      rw [mapAssign, if_neg h0, mapAssign_same k v m h]

/-- C12 (as stated, at a stale entry). The manager reloaded from the records of
`helloManager` holds the bytes `85 e9 65` under the digest of `hello`. Recording
`b.txt`, which holds `hello`, finds the digest among the keys and writes `hello`
under it: the stored bytes change. -/
theorem addFileVersion_overwrites_stale :
    mapFind
        (loadFromDisk ⟨some [(aTxt, hexRender sha256_hello.val)],
          some [(hexRender sha256_hello.val, hello)]⟩ emptyManager).hashMap
        (calculateFileHash (fun _ => sha256_hello) hello)
      = some [0x85, 0xe9, 0x65] ∧
    (addFileVersion (fun _ => sha256_hello) (fun _ => some hello) bTxt
        (loadFromDisk ⟨some [(aTxt, hexRender sha256_hello.val)],
          some [(hexRender sha256_hello.val, hello)]⟩ emptyManager) ⟨none, none⟩).map
        (fun r => mapFind r.1.hashMap (calculateFileHash (fun _ => sha256_hello) hello))
      = some (some hello) := by
  constructor <;> decide

/-- C12 (amended). `addFileVersion` on non-empty content whose digest is a key
of the content store. When the call records a version (the path is untracked, or
its latest digest is another one), the bytes under the digest are afterwards the
content just read, whatever was stored under it before: line 215 assigns, it
does not look for the key first. When the latest digest of the path is the
digest, the call reports no changes and leaves the whole state as it was. In
both cases no entry is added to the store, the bytes under every other digest
are as they were, and the store is as it was when the bytes stored under the
digest were the content already. -/
theorem addFileVersion_store_bytes (SHA256 : Str → Digest) (fs : Str → Option Str)
    (filename content : Str) (s : FileHistoryManager) (disk : Disk)
    (hfs : fs filename = some content) (hne : content ≠ [])
    (hkey : (mapFind s.hashMap (calculateFileHash SHA256 content)).isSome)
    (hv : validPtrs s) :
    ∃ s' disk' report,
      addFileVersion SHA256 fs filename s disk = some (s', disk', report) ∧
        (∀ d, d ≠ calculateFileHash SHA256 content →
          mapFind s'.hashMap d = mapFind s.hashMap d) ∧
        (mapFind s'.hashMap (calculateFileHash SHA256 content)
            = mapFind s.hashMap (calculateFileHash SHA256 content) ∨
          mapFind s'.hashMap (calculateFileHash SHA256 content) = some content) ∧
        (mapFind s.hashMap (calculateFileHash SHA256 content) = some content →
          s'.hashMap = s.hashMap) ∧
        s'.hashMap.length = s.hashMap.length ∧
        (getLatestHash s filename ≠ some (calculateFileHash SHA256 content) →
          report = Report.added (calculateFileHash SHA256 content) ∧
            mapFind s'.hashMap (calculateFileHash SHA256 content) = some content) ∧
        (getLatestHash s filename = some (calculateFileHash SHA256 content) →
          report = Report.noChanges ∧ s' = s) := by
  have hc : readFileContent fs filename = content := by
    unfold readFileContent
    rw [hfs]
  have hrec : ∀ s' : FileHistoryManager,
      s'.hashMap = mapAssign s.hashMap (calculateFileHash SHA256 content) content →
      (∀ d, d ≠ calculateFileHash SHA256 content →
          mapFind s'.hashMap d = mapFind s.hashMap d) ∧
        (mapFind s'.hashMap (calculateFileHash SHA256 content)
            = mapFind s.hashMap (calculateFileHash SHA256 content) ∨
          mapFind s'.hashMap (calculateFileHash SHA256 content) = some content) ∧
        (mapFind s.hashMap (calculateFileHash SHA256 content) = some content →
          s'.hashMap = s.hashMap) ∧
        s'.hashMap.length = s.hashMap.length ∧
        mapFind s'.hashMap (calculateFileHash SHA256 content) = some content := by
    intro s' e
    rw [e]
    refine ⟨?_, Or.inr (mapFind_mapAssign_self _ _ _), ?_, ?_, mapFind_mapAssign_self _ _ _⟩
    · intro d hd
      exact mapFind_mapAssign_ne _ _ _ _ (fun e' => hd e'.symm)
    · intro hsame
      exact mapAssign_same _ _ _ hsame
    · rw [mapAssign_length, if_pos hkey]
  cases htr : mapFind s.fileHistoryMap filename with
  | none =>
    have hadd := addFileVersion_new SHA256 fs filename content s disk hfs hne htr hv
    have hl : getLatestHash s filename = some [] := by
      unfold getLatestHash
      rw [htr]
    obtain ⟨r1, r2, r3, r4, r5⟩ := hrec (recordedNew s filename
      (calculateFileHash SHA256 content) content) rfl
    refine ⟨_, _, _, hadd, r1, r2, r3, r4, fun _ => ⟨rfl, r5⟩, ?_⟩
    intro h
    rw [hl] at h
    exact absurd (Option.some.inj h).symm (calculateFileHash_ne_nil SHA256 content)
  | some p =>
    have hp : p < s.heap.length := hv (filename, p) (mem_of_mapFind filename p _ htr)
    have hlast : s.heap[p]? = some s.heap[p] := List.getElem?_eq_getElem hp
    have hl : getLatestHash s filename = some s.heap[p].hash := by
      unfold getLatestHash
      rw [htr]
      simp only [hlast, Option.map_some']
    by_cases hd : s.heap[p].hash = calculateFileHash SHA256 content
    · refine ⟨s, some disk, Report.noChanges, ?_, fun _ _ => rfl, Or.inl rfl, fun _ => rfl, rfl,
        ?_, fun _ => ⟨rfl, rfl⟩⟩
      · unfold addFileVersion
        simp only [hc, if_neg hne, htr, hlast, hd, if_true]
      · intro h
        rw [hl, hd] at h
        exact absurd rfl h
    · have hadd := addFileVersion_next SHA256 fs filename content s disk p
        s.heap[p] hfs hne htr hlast hd hv
      obtain ⟨r1, r2, r3, r4, r5⟩ := hrec (recordedNext s filename
        (calculateFileHash SHA256 content) content p s.heap[p]) rfl
      refine ⟨_, _, _, hadd, r1, r2, r3, r4, fun _ => ⟨rfl, r5⟩, ?_⟩
      intro h
      rw [hl] at h
      exact absurd (Option.some.inj h) hd

theorem addFileVersion_store_bytes_witness :
    (fun _ : Str => some hello) bTxt = some hello ∧ hello ≠ [] ∧
      (mapFind staleManager.hashMap (calculateFileHash (fun _ => sha256_hello) hello)).isSome ∧
      validPtrs staleManager ∧
      mapFind staleManager.hashMap (calculateFileHash (fun _ => sha256_hello) hello)
        = some [0x85, 0xe9, 0x65] ∧
      getLatestHash staleManager bTxt ≠ some (calculateFileHash (fun _ => sha256_hello) hello) ∧
      ∃ s' disk' report,
        addFileVersion (fun _ => sha256_hello) (fun _ => some hello) bTxt staleManager
            ⟨none, none⟩ = some (s', disk', report) ∧
          (∀ d, d ≠ calculateFileHash (fun _ => sha256_hello) hello →
            mapFind s'.hashMap d = mapFind staleManager.hashMap d) ∧
          (mapFind s'.hashMap (calculateFileHash (fun _ => sha256_hello) hello)
              = mapFind staleManager.hashMap (calculateFileHash (fun _ => sha256_hello) hello) ∨
            mapFind s'.hashMap (calculateFileHash (fun _ => sha256_hello) hello) = some hello) ∧
          (mapFind staleManager.hashMap (calculateFileHash (fun _ => sha256_hello) hello)
              = some hello →
            s'.hashMap = staleManager.hashMap) ∧
          s'.hashMap.length = staleManager.hashMap.length ∧
          (getLatestHash staleManager bTxt
              ≠ some (calculateFileHash (fun _ => sha256_hello) hello) →
            report = Report.added (calculateFileHash (fun _ => sha256_hello) hello) ∧
              mapFind s'.hashMap (calculateFileHash (fun _ => sha256_hello) hello)
                = some hello) ∧
          (getLatestHash staleManager bTxt
              = some (calculateFileHash (fun _ => sha256_hello) hello) →
            report = Report.noChanges ∧ s' = staleManager) :=
  ⟨rfl, by decide, by decide, by decide, by decide, by decide,
    addFileVersion_store_bytes (fun _ => sha256_hello) (fun _ => some hello) bTxt hello
      staleManager ⟨none, none⟩ rfl (by decide) (by decide) (by decide)⟩

/-! ## Invariants of the heap -/

theorem prevOlder_append (heap : List FileVersion) (node : FileVersion)
    (h : prevOlder heap) (hnode : ∀ q ∈ node.prev, q < heap.length) :
    prevOlder (heap ++ [node]) := by
  intro a ha q hq
  rw [List.length_append, List.length_singleton] at ha
  by_cases hlt : a < heap.length
  · rw [List.getElem?_append_left hlt] at hq
    exact h a hlt q hq
  · have ha' : a = heap.length := by omega
    subst ha'
    rw [List.getElem?_append_right (le_refl _)] at hq
    simp only [Nat.sub_self, List.getElem?_cons_zero, Option.some_bind] at hq
    exact hnode q hq

theorem prevOlder_set_next (heap : List FileVersion) (p : Nat) (last : FileVersion)
    (next : Option Nat) (h : prevOlder heap) (hlast : heap[p]? = some last) :
    prevOlder (heap.set p { last with next := next }) := by
  intro a ha q hq
  rw [List.length_set] at ha
  apply h a ha q
  by_cases hap : p = a
  · subst hap
    rw [List.getElem?_set, if_pos rfl, if_pos ha] at hq
    rw [hlast]
    exact hq
  · rw [List.getElem?_set_ne hap] at hq
    exact hq

/-- The three invariants hold after a node without links was allocated for a
path and its digest was stored. -/
theorem invariants_alloc (s : FileHistoryManager) (filename h content : Str)
    (hv : validPtrs s) (hprev : prevOlder s.heap) (hst : heapStored s) :
    validPtrs (recordedNew s filename h content) ∧
      prevOlder (recordedNew s filename h content).heap ∧
      heapStored (recordedNew s filename h content) := by
  refine ⟨validPtrs_mapAssign s.heap _ s.fileHistoryMap s.hashMap _ filename hv (by simp), ?_, ?_⟩
  · apply prevOlder_append _ _ hprev
    intro q hq
    cases hq
  · intro node hnode
    show node.hash ∈ (mapAssign s.hashMap h content).map Prod.fst
    rw [mem_keys_mapAssign]
    rcases List.mem_append.mp hnode with hn | hn
    · exact Or.inr (hst node hn)
    · rw [List.mem_singleton] at hn
      rw [hn]
      exact Or.inl rfl

/-- The three invariants hold after a node was appended to a chain and its
digest was stored. -/
theorem invariants_next (s : FileHistoryManager) (filename h content : Str) (p : Nat)
    (last : FileVersion) (hlast : s.heap[p]? = some last)
    (hv : validPtrs s) (hprev : prevOlder s.heap) (hst : heapStored s) :
    validPtrs (recordedNext s filename h content p last) ∧
      prevOlder (recordedNext s filename h content p last).heap ∧
      heapStored (recordedNext s filename h content p last) := by
  have hp : p < s.heap.length := by
    by_contra hge
    rw [List.getElem?_eq_none (Nat.le_of_not_lt hge)] at hlast
    cases hlast
  refine ⟨validPtrs_mapAssign s.heap _ s.fileHistoryMap s.hashMap _ filename hv (by simp), ?_, ?_⟩
  · have h1 := prevOlder_set_next s.heap p last (some s.heap.length) hprev hlast
    have h2 := prevOlder_append _ { newFileVersion h with prev := some p } h1 (by
      intro q hq
      cases hq
      rw [List.length_set]
      exact hp)
    exact h2
  · intro node hnode
    show node.hash ∈ (mapAssign s.hashMap h content).map Prod.fst
    rw [mem_keys_mapAssign]
    rcases List.mem_append.mp hnode with hn | hn
    · rcases List.mem_or_eq_of_mem_set hn with hn | hn
      · exact Or.inr (hst node hn)
      · rw [hn]
        exact Or.inr (hst last (List.getElem?_mem hlast))
    · rw [List.mem_singleton] at hn
      rw [hn]
      exact Or.inl rfl

theorem registerFile_fst (SHA256 : Str → Digest) (st : FileHistoryManager × Json × Json)
    (file : Str × Str) :
    (registerFile SHA256 st file).1
      = recordedNew st.1 file.1 (calculateFileHash SHA256 file.2) file.2 := rfl

theorem invariants_registerAll (SHA256 : Str → Digest) :
    ∀ (files : List (Str × Str)) (st : FileHistoryManager × Json × Json),
      validPtrs st.1 → prevOlder st.1.heap → heapStored st.1 →
      validPtrs (files.foldl (registerFile SHA256) st).1 ∧
        prevOlder (files.foldl (registerFile SHA256) st).1.heap ∧
        heapStored (files.foldl (registerFile SHA256) st).1
  | [], _, hv, hprev, hst => ⟨hv, hprev, hst⟩
  | file :: files, st, hv, hprev, hst => by
    obtain ⟨h1, h2, h3⟩ := invariants_alloc st.1 file.1 (calculateFileHash SHA256 file.2)
      file.2 hv hprev hst
    rw [List.foldl_cons]
    exact invariants_registerAll SHA256 files _ h1 h2 h3

theorem initializeRepo_fst (SHA256 : Str → Digest) (fs : Str → Option Str)
    (listing : List DirEntry) (s : FileHistoryManager) :
    (initializeRepo SHA256 fs listing s).1
      = ((scanned fs listing).foldl (registerFile SHA256) (s, [], [])).1 := by
  unfold initializeRepo
  simp only []
  rw [initializeRepoLoop_eq]

/-- In a reachable state the pointers of the index are addresses of nodes,
`prev` links point to older nodes, and every digest of a node is stored. -/
theorem invariants_of_reachable (SHA256 : Str → Digest) (s : FileHistoryManager)
    (h : Reachable SHA256 s) : validPtrs s ∧ prevOlder s.heap ∧ heapStored s := by
  induction h with
  | empty =>
    refine ⟨?_, ?_, ?_⟩
    · intro e he
      cases he
    · intro a ha
      cases ha
    · intro node hnode
      cases hnode
  | init fs listing s _ ih =>
    rw [initializeRepo_fst]
    exact invariants_registerAll SHA256 _ _ ih.1 ih.2.1 ih.2.2
  | add fs filename s disk r _ hadd ih =>
    obtain ⟨s', disk', report, hadd', hcases⟩ :=
      addFileVersion_result SHA256 fs filename s disk ih.1
    rw [hadd'] at hadd
    cases hadd
    rcases hcases with h | ⟨_, h⟩ | ⟨p, last, _, hlast, h⟩
    · show validPtrs s' ∧ prevOlder s'.heap ∧ heapStored s'
      rw [h]
      exact ih
    · show validPtrs s' ∧ prevOlder s'.heap ∧ heapStored s'
      rw [h]
      exact invariants_alloc s filename _ _ ih.1 ih.2.1 ih.2.2
    · show validPtrs s' ∧ prevOlder s'.heap ∧ heapStored s'
      rw [h]
      exact invariants_next s filename _ _ p last hlast ih.1 ih.2.1 ih.2.2

theorem chainNodes_mem (heap : List FileVersion) :
    ∀ (fuel : Nat) (o : Option Nat) (a : Nat), a ∈ chainNodes heap fuel o →
      ∃ node, heap[a]? = some node
  | 0, _, _, h => by
    simp [chainNodes] at h
  | _ + 1, none, _, h => by
    simp [chainNodes] at h
  | fuel + 1, some b, a, h => by
    rw [chainNodes] at h
    cases hb : heap[b]? with
    | none =>
      rw [hb] at h
      simp at h
    | some node =>
      rw [hb] at h
      simp only [List.mem_cons] at h
      rcases h with h | h
      · rw [h]
        exact ⟨node, hb⟩
      · exact chainNodes_mem heap fuel node.prev a h

/-- C13. In every state reached from the empty manager by calls of
`initializeRepo` and `addFileVersion`, every node of the chain of every path
(the tail and the older nodes) holds a digest that is a key of the content
store. -/
theorem reachable_chain_stored (SHA256 : Str → Digest) (s : FileHistoryManager)
    (h : Reachable SHA256 s) (path : Str) (a : Nat) (ha : a ∈ chainOf s path) :
    ∃ node, s.heap[a]? = some node ∧ node.hash ∈ s.hashMap.map Prod.fst := by
  obtain ⟨node, hnode⟩ := chainNodes_mem s.heap _ _ a ha
  exact ⟨node, hnode, (invariants_of_reachable SHA256 s h).2.2 node (List.getElem?_mem hnode)⟩

theorem reachable_chain_stored_witness :
    Reachable (fun _ => sha256_hello)
        (initializeRepo (fun _ => sha256_hello) (fun _ => some hello) [⟨aTxt, true⟩]
          emptyManager).1 ∧
      0 ∈ chainOf (initializeRepo (fun _ => sha256_hello) (fun _ => some hello) [⟨aTxt, true⟩]
          emptyManager).1 aTxt ∧
      ∃ node,
        (initializeRepo (fun _ => sha256_hello) (fun _ => some hello) [⟨aTxt, true⟩]
            emptyManager).1.heap[0]? = some node ∧
          node.hash ∈ (initializeRepo (fun _ => sha256_hello) (fun _ => some hello)
            [⟨aTxt, true⟩] emptyManager).1.hashMap.map Prod.fst :=
  ⟨Reachable.init _ _ _ Reachable.empty, by decide,
    reachable_chain_stored (fun _ => sha256_hello) _ (Reachable.init _ _ _ Reachable.empty)
      aTxt 0 (by decide)⟩

/-! ## The records that `initializeRepo` writes -/

theorem latestOf_alloc (s : FileHistoryManager) (filename h content path : Str)
    (hv : validPtrs s) :
    latestOf (recordedNew s filename h content) path
      = if filename = path then some h else latestOf s path := by
  unfold latestOf
  show (mapFind (mapAssign s.fileHistoryMap filename s.heap.length) path).bind
    (fun p => ((s.heap ++ [newFileVersion h])[p]?).map (fun node => node.hash)) = _
  rw [mapFind_mapAssign]
  by_cases hk : filename = path
  · rw [if_pos hk, if_pos hk, Option.some_bind,
      List.getElem?_append_right (le_refl _)]
    simp [newFileVersion]
  · rw [if_neg hk, if_neg hk]
    cases hp : mapFind s.fileHistoryMap path with
    | none => rfl
    | some p =>
      have hlt : p < s.heap.length := hv (path, p) (mem_of_mapFind path p _ hp)
      rw [Option.some_bind, Option.some_bind, List.getElem?_append_left hlt]

/-- The two local JSON objects of `initializeRepo` follow the two maps: the
history object holds the latest digest of every path, the content object the
Base64 text of every stored content. -/
theorem records_registerAll (SHA256 : Str → Digest) :
    ∀ (files : List (Str × Str)) (st : FileHistoryManager × Json × Json),
      validPtrs st.1 → jsonSorted st.2.1 → jsonSorted st.2.2 →
      (∀ path, mapFind st.2.1 path = latestOf st.1 path) →
      (∀ d, mapFind st.2.2 d = (mapFind st.1.hashMap d).map base64_encode) →
      validPtrs (files.foldl (registerFile SHA256) st).1 ∧
        jsonSorted (files.foldl (registerFile SHA256) st).2.1 ∧
        jsonSorted (files.foldl (registerFile SHA256) st).2.2 ∧
        (∀ path, mapFind (files.foldl (registerFile SHA256) st).2.1 path
          = latestOf (files.foldl (registerFile SHA256) st).1 path) ∧
        (∀ d, mapFind (files.foldl (registerFile SHA256) st).2.2 d
          = (mapFind (files.foldl (registerFile SHA256) st).1.hashMap d).map base64_encode)
  | [], _, hv, h1, h2, h3, h4 => ⟨hv, h1, h2, h3, h4⟩
  | file :: files, st, hv, h1, h2, h3, h4 => by
    rw [List.foldl_cons]
    apply records_registerAll SHA256 files (registerFile SHA256 st file)
    · exact validPtrs_mapAssign st.1.heap _ st.1.fileHistoryMap st.1.hashMap _ file.1 hv
        (by simp)
    · exact jsonSorted_jsonAssign _ _ _ h1
    · exact jsonSorted_jsonAssign _ _ _ h2
    · intro path
      rw [registerFile_fst, latestOf_alloc _ _ _ _ _ hv]
      show mapFind (jsonAssign st.2.1 file.1 (calculateFileHash SHA256 file.2)) path = _
      rw [mapFind_jsonAssign, h3 path]
    · intro d
      show mapFind (jsonAssign st.2.2 (calculateFileHash SHA256 file.2) (base64_encode file.2)) d
        = (mapFind (mapAssign st.1.hashMap (calculateFileHash SHA256 file.2) file.2) d).map
            base64_encode
      rw [mapFind_jsonAssign, mapFind_mapAssign, h4 d]
      split <;> rfl

theorem getLatestHash_eq_latestOf (s : FileHistoryManager) (path : Str) (hv : validPtrs s) :
    getLatestHash s path = some ((latestOf s path).getD []) ∧
      (mapFind s.fileHistoryMap path).isSome = (latestOf s path).isSome := by
  unfold getLatestHash latestOf
  cases hp : mapFind s.fileHistoryMap path with
  | none => exact ⟨rfl, rfl⟩
  | some p =>
    have hlt : p < s.heap.length := hv (path, p) (mem_of_mapFind path p _ hp)
    simp only [Option.some_bind, List.getElem?_eq_getElem hlt, Option.map_some',
      Option.getD_some, Option.isSome_some, and_self]

set_option maxRecDepth 100000 in
theorem hexDigits_ascii : ∀ x ∈ hexDigits, x.val < 0x80 := by
  decide

set_option maxRecDepth 100000 in
theorem base64_chars_ascii : ∀ x ∈ base64_chars, x.val < 0x80 := by
  decide

/-- A digest text is ASCII, hence valid UTF-8. -/
theorem validUtf8_calculateFileHash (SHA256 : Str → Digest) (content : Str) :
    validUtf8 (calculateFileHash SHA256 content) = true :=
  validUtf8_ascii _ (fun x hx => hexDigits_ascii x ((calculateFileHash_bounds SHA256 content).2.2 x hx))

/-- A Base64 text is ASCII, hence valid UTF-8. -/
theorem validUtf8_base64_encode (b : Str) : validUtf8 (base64_encode b) = true := by
  obtain ⟨body, hbody, hmem, _⟩ := encode_shape_aux b 0 [] rfl
  rw [List.nil_append] at hbody
  rw [base64_encode_eq, hbody]
  apply validUtf8_ascii
  intro x hx
  rcases List.mem_append.mp hx with h | h
  · exact base64_chars_ascii x (hmem x h)
  · rw [(List.mem_replicate.mp h).2]
    decide

/-- The content object of `initializeRepo` holds digest texts and Base64 texts
only: `dump` never throws on it. -/
theorem dumps_registerAll_content (SHA256 : Str → Digest) :
    ∀ (files : List (Str × Str)) (st : FileHistoryManager × Json × Json),
      dumps st.2.2 = true → dumps (files.foldl (registerFile SHA256) st).2.2 = true
  | [], _, h => h
  | file :: files, st, h => by
    rw [List.foldl_cons]
    exact dumps_registerAll_content SHA256 files _
      (dumps_jsonAssign st.2.2 _ _ h (validUtf8_calculateFileHash SHA256 file.2)
        (validUtf8_base64_encode file.2))

theorem dumps_registerAll_history (SHA256 : Str → Digest) :
    ∀ (files : List (Str × Str)) (st : FileHistoryManager × Json × Json),
      dumps st.2.1 = true → (∀ f ∈ files, validUtf8 f.1 = true) →
      dumps (files.foldl (registerFile SHA256) st).2.1 = true
  | [], _, h, _ => h
  | file :: files, st, h, ht => by
    rw [List.foldl_cons]
    exact dumps_registerAll_history SHA256 files _
      (dumps_jsonAssign st.2.1 _ _ h (ht file (List.mem_cons_self _ _))
        (validUtf8_calculateFileHash SHA256 file.2))
      (fun f hf => ht f (List.mem_cons_of_mem _ hf))

theorem registerAll_history_keys (SHA256 : Str → Digest) :
    ∀ (files : List (Str × Str)) (st : FileHistoryManager × Json × Json) (k : Str),
      k ∈ st.2.1.map Prod.fst ∨ k ∈ files.map Prod.fst →
      k ∈ (files.foldl (registerFile SHA256) st).2.1.map Prod.fst
  | [], _, k, h => by
    rcases h with h | h
    · exact h
    · cases h
  | file :: files, st, k, h => by
    rw [List.foldl_cons]
    apply registerAll_history_keys SHA256 files _ k
    rcases h with h | h
    · exact Or.inl ((mem_keys_jsonAssign _ _ _ _).mpr (Or.inr h))
    · rw [List.map_cons, List.mem_cons] at h
      rcases h with h | h
      · exact Or.inl ((mem_keys_jsonAssign _ _ _ _).mpr (Or.inl h))
      · exact Or.inr h

/-- The history object of `initializeRepo` can be dumped exactly when every
registered path is valid UTF-8. -/
theorem dumps_registerAll_history_eq (SHA256 : Str → Digest) (files : List (Str × Str))
    (s : FileHistoryManager) :
    dumps (files.foldl (registerFile SHA256) (s, [], [])).2.1
      = files.all (fun f => validUtf8 f.1) := by
  rw [Bool.eq_iff_iff, List.all_eq_true]
  constructor
  · intro h f hf
    have hk := registerAll_history_keys SHA256 files (s, [], []) f.1
      (Or.inr (List.mem_map.mpr ⟨f, hf, rfl⟩))
    obtain ⟨e, he, hfe⟩ := List.mem_map.mp hk
    rw [← hfe]
    exact ((dumps_iff _).mp h e he).1
  · intro h
    exact dumps_registerAll_history SHA256 files (s, [], []) rfl h

/-- The record write of `initializeRepo`: the two objects are written when
every registered path is valid UTF-8, and `dump` throws otherwise. -/
theorem initializeRepo_snd (SHA256 : Str → Digest) (fs : Str → Option Str)
    (listing : List DirEntry) (s : FileHistoryManager) :
    (initializeRepo SHA256 fs listing s).2
      = if (scanned fs listing).all (fun f => validUtf8 f.1) then
          some ⟨some (initializeRepoLoop SHA256 fs listing (s, [], [])).2.1,
                some (initializeRepoLoop SHA256 fs listing (s, [], [])).2.2⟩
        else none := by
  unfold initializeRepo
  simp only []
  rw [initializeRepoLoop_eq, dumps_registerAll_history_eq,
    dumps_registerAll_content SHA256 (scanned fs listing) (s, [], []) rfl, Bool.and_true]

/-- C19 (as stated, at a path that is not valid UTF-8). The walk finds one file,
the Latin-1 path `café.txt` holding `hello`. `initializeRepo` leaves a manager
that tracks the path with the digest of `hello`, and writes no records:
`dump(4)` throws on the key at line 180, so nothing can be loaded that tracks
the path. -/
theorem initializeRepo_throws_on_latin1_path :
    (initializeRepo (fun _ => sha256_hello) (fun _ => some hello) [⟨cafeTxt, true⟩]
        emptyManager).1 = cafeManager ∧
      getLatestHash cafeManager cafeTxt
        = some (calculateFileHash (fun _ => sha256_hello) hello) ∧
      validUtf8 cafeTxt = false ∧
      (initializeRepo (fun _ => sha256_hello) (fun _ => some hello) [⟨cafeTxt, true⟩]
        emptyManager).2 = none := by
  refine ⟨by decide, by decide, by decide, by decide⟩

/-- C19 (amended). When every path that `initializeRepo` registers is valid
UTF-8, it writes both records from an empty manager, and loading them into a
fresh empty manager gives the same tracked paths, with the same latest digest
for every path, and for every digest the byte content that `initializeRepo`
left in memory, whatever bytes the files hold. -/
theorem initializeRepo_loadFromDisk (SHA256 : Str → Digest) (fs : Str → Option Str)
    (listing : List DirEntry) (ht : ∀ f ∈ scanned fs listing, validUtf8 f.1 = true) :
    ∃ disk, (initializeRepo SHA256 fs listing emptyManager).2 = some disk ∧
      ∀ path d,
        (mapFind (loadFromDisk disk emptyManager).fileHistoryMap path).isSome
            = (mapFind (initializeRepo SHA256 fs listing emptyManager).1.fileHistoryMap
                path).isSome ∧
          getLatestHash (loadFromDisk disk emptyManager) path
            = getLatestHash (initializeRepo SHA256 fs listing emptyManager).1 path ∧
          mapFind (loadFromDisk disk emptyManager).hashMap d
            = mapFind (initializeRepo SHA256 fs listing emptyManager).1.hashMap d := by
  obtain ⟨hv, hs1, hs2, hlatest, hcontent⟩ := records_registerAll SHA256 (scanned fs listing)
    (emptyManager, [], [])
    (by intro e he; cases he) (by simp [jsonSorted]) (by simp [jsonSorted])
    (by intro p; rfl) (by intro p; rfl)
  have hsnd := initializeRepo_snd SHA256 fs listing emptyManager
  rw [List.all_eq_true.mpr ht, if_pos rfl, initializeRepoLoop_eq] at hsnd
  refine ⟨_, hsnd, ?_⟩
  rw [initializeRepo_fst]
  generalize (scanned fs listing).foldl (registerFile SHA256) (emptyManager, [], []) = st
    at hv hs1 hs2 hlatest hcontent
  intro path d
  obtain ⟨_, _, hload⟩ := loadHistory_spec st.2.1 emptyManager (keysNodup_of_jsonSorted _ hs1)
  have hheap := loadHashMap_heap st.2.2 (loadHistory st.2.1 emptyManager)
  have e1 : (loadFromDisk ⟨some st.2.1, some st.2.2⟩ emptyManager).heap
      = (loadHistory st.2.1 emptyManager).heap := hheap.1
  have e2 : (loadFromDisk ⟨some st.2.1, some st.2.2⟩ emptyManager).fileHistoryMap
      = (loadHistory st.2.1 emptyManager).fileHistoryMap := hheap.2
  obtain ⟨hg1, hg2⟩ := getLatestHash_eq_latestOf st.1 path hv
  have hl := hload path
  rw [hlatest path] at hl
  refine ⟨?_, ?_, ?_⟩
  · rw [e2, hg2]
    cases hlo : latestOf st.1 path with
    | none =>
      rw [hlo] at hl
      simp only [] at hl
      rw [hl]
      rfl
    | some h =>
      rw [hlo] at hl
      obtain ⟨p, hp1, _⟩ := hl
      rw [hp1]
      rfl
  · rw [hg1]
    unfold getLatestHash
    rw [e1, e2]
    cases hlo : latestOf st.1 path with
    | none =>
      rw [hlo] at hl
      simp only [] at hl
      rw [hl]
      rfl
    | some h =>
      rw [hlo] at hl
      obtain ⟨p, hp1, hp2⟩ := hl
      rw [hp1]
      simp only [hp2, Option.map_some', Option.getD_some]
      rfl
  · show mapFind (loadHashMap st.2.2 (loadHistory st.2.1 emptyManager)).hashMap d = _
    rw [loadHashMap_spec _ _ (keysNodup_of_jsonSorted _ hs2) d, hcontent d,
      loadHistory_hashMap]
    cases hd : mapFind st.1.hashMap d with
    | none => rfl
    | some c =>
      simp only [Option.map_some']
      rw [decode_encode_eq]

theorem initializeRepo_loadFromDisk_witness :
    (∀ f ∈ scanned (fun _ => some binaryContent) [⟨aTxt, true⟩, ⟨bTxt, false⟩],
        validUtf8 f.1 = true) ∧
      ∃ disk,
        (initializeRepo (fun _ => sha256_binary) (fun _ => some binaryContent)
          [⟨aTxt, true⟩, ⟨bTxt, false⟩] emptyManager).2 = some disk ∧
        ∀ path d,
          (mapFind (loadFromDisk disk emptyManager).fileHistoryMap path).isSome
              = (mapFind (initializeRepo (fun _ => sha256_binary) (fun _ => some binaryContent)
                  [⟨aTxt, true⟩, ⟨bTxt, false⟩] emptyManager).1.fileHistoryMap path).isSome ∧
            getLatestHash (loadFromDisk disk emptyManager) path
              = getLatestHash (initializeRepo (fun _ => sha256_binary)
                  (fun _ => some binaryContent) [⟨aTxt, true⟩, ⟨bTxt, false⟩]
                  emptyManager).1 path ∧
            mapFind (loadFromDisk disk emptyManager).hashMap d
              = mapFind (initializeRepo (fun _ => sha256_binary) (fun _ => some binaryContent)
                  [⟨aTxt, true⟩, ⟨bTxt, false⟩] emptyManager).1.hashMap d :=
  ⟨by decide,
    initializeRepo_loadFromDisk (fun _ => sha256_binary) (fun _ => some binaryContent)
      [⟨aTxt, true⟩, ⟨bTxt, false⟩] (by decide)⟩

/-! ## Chains under allocation -/

/-- A longer heap that has the same `prev` link at every old address gives the
same chain from an old address. -/
theorem chainNodes_extend {heap heap' : List FileVersion} (hprev : prevOlder heap)
    (hsame : ∀ (a : Nat) (node : FileVersion), heap[a]? = some node →
      ∃ node' : FileVersion, heap'[a]? = some node' ∧ node'.prev = node.prev)
    (hlen : heap.length ≤ heap'.length) (o : Option Nat) (ho : ∀ a ∈ o, a < heap.length) :
    chainNodes heap' heap'.length o = chainNodes heap heap.length o := by
  cases o with
  | none => rw [chainNodes_none, chainNodes_none]
  | some a =>
    have ha : a < heap.length := ho a rfl
    rw [chainNodes_congr hprev hsame _ a ha,
      chainNodes_fuel hprev heap'.length heap.length a (by omega) ha]

/-- One step of the loop of `loadFromDisk`, as a step on any state. -/
theorem chains_alloc (s : FileHistoryManager) (filename h : Str) (hashMap : List (Str × Str))
    (hv : validPtrs s) (hprev : prevOlder s.heap) :
    validPtrs ⟨s.heap ++ [newFileVersion h],
        mapAssign s.fileHistoryMap filename s.heap.length, hashMap⟩ ∧
      prevOlder (s.heap ++ [newFileVersion h]) ∧
      chainNodes (s.heap ++ [newFileVersion h]) (s.heap ++ [newFileVersion h]).length
          (mapFind (mapAssign s.fileHistoryMap filename s.heap.length) filename)
        = [s.heap.length] ∧
      ∀ path, path ≠ filename →
        mapFind (mapAssign s.fileHistoryMap filename s.heap.length) path
            = mapFind s.fileHistoryMap path ∧
          chainNodes (s.heap ++ [newFileVersion h]) (s.heap ++ [newFileVersion h]).length
              (mapFind (mapAssign s.fileHistoryMap filename s.heap.length) path)
            = chainOf s path := by
  refine ⟨validPtrs_mapAssign s.heap _ s.fileHistoryMap s.hashMap _ filename hv (by simp), ?_,
    ?_, ?_⟩
  · apply prevOlder_append _ _ hprev
    intro q hq
    cases hq
  · rw [mapFind_mapAssign_self]
    apply chainNodes_single _ _ h
    rw [List.getElem?_append_right (le_refl _)]
    simp
  · intro path hpath
    have hfind := mapFind_mapAssign_ne s.fileHistoryMap filename s.heap.length path
      (fun e => hpath e.symm)
    refine ⟨hfind, ?_⟩
    rw [hfind]
    unfold chainOf
    apply chainNodes_extend hprev
    · intro a node ha
      have halt : a < s.heap.length := by
        by_contra hge
        rw [List.getElem?_eq_none (Nat.le_of_not_lt hge)] at ha
        cases ha
      exact ⟨node, by rw [List.getElem?_append_left halt, ha], rfl⟩
    · simp
    · intro a ha
      exact hv (path, a) (mem_of_mapFind path a _ ha)

/-- The loop of `loadFromDisk` over the history record, from any well-formed
state: a path among the keys gets a chain of one node, the chain of any other
path is as it was. -/
theorem loadHistory_chains : ∀ (entries : Json) (s : FileHistoryManager),
    validPtrs s → prevOlder s.heap →
      validPtrs (loadHistory entries s) ∧ prevOlder (loadHistory entries s).heap ∧
        ∀ path,
          (path ∉ entries.map Prod.fst →
            mapFind (loadHistory entries s).fileHistoryMap path = mapFind s.fileHistoryMap path ∧
              chainOf (loadHistory entries s) path = chainOf s path) ∧
          (path ∈ entries.map Prod.fst →
            ∃ p, mapFind (loadHistory entries s).fileHistoryMap path = some p ∧
              chainOf (loadHistory entries s) path = [p])
  | [], s, hv, hprev => by
    refine ⟨hv, hprev, ?_⟩
    intro path
    refine ⟨fun _ => ⟨rfl, rfl⟩, ?_⟩
    intro h
    cases h
  | (f, h) :: entries, s, hv, hprev => by
    obtain ⟨hv1, hprev1, hself, hother⟩ := chains_alloc s f h s.hashMap hv hprev
    obtain ⟨hv2, hprev2, hrest⟩ := loadHistory_chains entries
      { s with heap := s.heap ++ [newFileVersion h],
               fileHistoryMap := mapAssign s.fileHistoryMap f s.heap.length } hv1 hprev1
    rw [loadHistory]
    refine ⟨hv2, hprev2, ?_⟩
    intro path
    obtain ⟨hnot, hin⟩ := hrest path
    constructor
    · intro hpath
      simp only [List.map_cons, List.mem_cons, not_or] at hpath
      obtain ⟨h1, h2⟩ := hnot hpath.2
      obtain ⟨h3, h4⟩ := hother path hpath.1
      exact ⟨h1.trans h3, h2.trans h4⟩
    · intro hpath
      by_cases hmem : path ∈ entries.map Prod.fst
      · exact hin hmem
      · simp only [List.map_cons, List.mem_cons] at hpath
        have hpf : path = f := by
          rcases hpath with h' | h'
          · exact h'
          · exact absurd h' hmem
        subst hpf
        obtain ⟨h1, h2⟩ := hnot hmem
        refine ⟨s.heap.length, ?_, ?_⟩
        · rw [h1]
          exact mapFind_mapAssign_self _ _ _
        · rw [h2]
          exact hself

theorem loadHistory_congr : ∀ (entries : Json) (s t : FileHistoryManager),
    s.heap = t.heap → s.fileHistoryMap = t.fileHistoryMap →
      (loadHistory entries s).heap = (loadHistory entries t).heap ∧
        (loadHistory entries s).fileHistoryMap = (loadHistory entries t).fileHistoryMap
  | [], _, _, h1, h2 => ⟨h1, h2⟩
  | (f, h) :: entries, s, t, h1, h2 => by
    rw [loadHistory, loadHistory]
    apply loadHistory_congr entries
    · show s.heap ++ _ = t.heap ++ _
      rw [h1]
    · show mapAssign s.fileHistoryMap f s.heap.length = mapAssign t.fileHistoryMap f t.heap.length
      rw [h1, h2]

/-- The heap and the index that `initializeRepo` leaves are those that the
loop of `loadFromDisk` leaves on the registered paths and their digests. -/
theorem registerAll_memory (SHA256 : Str → Digest) :
    ∀ (files : List (Str × Str)) (st : FileHistoryManager × Json × Json),
      (files.foldl (registerFile SHA256) st).1.heap
          = (loadHistory (files.map (fun f => (f.1, calculateFileHash SHA256 f.2))) st.1).heap ∧
        (files.foldl (registerFile SHA256) st).1.fileHistoryMap
          = (loadHistory (files.map (fun f => (f.1, calculateFileHash SHA256 f.2)))
              st.1).fileHistoryMap
  | [], _ => ⟨rfl, rfl⟩
  | file :: files, st => by
    obtain ⟨ih1, ih2⟩ := registerAll_memory SHA256 files (registerFile SHA256 st file)
    obtain ⟨c1, c2⟩ := loadHistory_congr
      (files.map (fun f => (f.1, calculateFileHash SHA256 f.2)))
      (registerFile SHA256 st file).1
      { st.1 with heap := st.1.heap ++ [newFileVersion (calculateFileHash SHA256 file.2)],
                  fileHistoryMap := mapAssign st.1.fileHistoryMap file.1 st.1.heap.length }
      rfl rfl
    rw [List.foldl_cons, List.map_cons, loadHistory]
    exact ⟨ih1.trans c1, ih2.trans c2⟩

theorem chainOf_congr (s t : FileHistoryManager) (h1 : s.heap = t.heap)
    (h2 : s.fileHistoryMap = t.fileHistoryMap) (path : Str) : chainOf s path = chainOf t path := by
  unfold chainOf
  rw [h1, h2]

theorem tracked_mapAssign (m : List (Str × Nat)) (filename : Str) (p : Nat) (path : Str)
    (h : (mapFind m path).isSome) : (mapFind (mapAssign m filename p) path).isSome := by
  rw [mapFind_mapAssign]
  split
  · rfl
  · exact h

/-! ## Chains under the three operations -/

/-- The chains after a node was appended to the chain of `filename`. -/
theorem chains_next (s : FileHistoryManager) (filename h content : Str) (p : Nat)
    (last : FileVersion) (htr : mapFind s.fileHistoryMap filename = some p)
    (hlast : s.heap[p]? = some last) (hv : validPtrs s) (hprev : prevOlder s.heap) :
    chainOf (recordedNext s filename h content p last) filename
        = s.heap.length :: chainOf s filename ∧
      ∀ path, path ≠ filename →
        mapFind (recordedNext s filename h content p last).fileHistoryMap path
            = mapFind s.fileHistoryMap path ∧
          chainOf (recordedNext s filename h content p last) path = chainOf s path := by
  have hp : p < s.heap.length := hv (filename, p) (mem_of_mapFind filename p _ htr)
  obtain ⟨h1, h2, h3, h4⟩ := recordedNext_heap_old s filename h content p last hp
  have hmap : (recordedNext s filename h content p last).fileHistoryMap
      = mapAssign s.fileHistoryMap filename s.heap.length := rfl
  have hsame : ∀ (a : Nat) (node : FileVersion), s.heap[a]? = some node →
      ∃ node' : FileVersion, (recordedNext s filename h content p last).heap[a]? = some node' ∧
        node'.prev = node.prev := by
    intro a node ha
    have halt : a < s.heap.length := by
      by_contra hge
      rw [List.getElem?_eq_none (Nat.le_of_not_lt hge)] at ha
      cases ha
    by_cases hap : a = p
    · subst hap
      rw [hlast] at ha
      cases ha
      exact ⟨_, h3, rfl⟩
    · exact ⟨node, by rw [h4 a hap halt, ha], rfl⟩
  constructor
  · unfold chainOf
    rw [hmap, mapFind_mapAssign_self, h1, chainNodes, h2, htr]
    simp only []
    rw [chainNodes_congr hprev hsame _ p hp]
  · intro path hpath
    have hfind : mapFind (recordedNext s filename h content p last).fileHistoryMap path
        = mapFind s.fileHistoryMap path := by
      rw [hmap, mapFind_mapAssign_ne _ _ _ _ (fun e => hpath e.symm)]
    refine ⟨hfind, ?_⟩
    unfold chainOf
    rw [hfind]
    apply chainNodes_extend hprev hsame
    · rw [h1]
      exact Nat.le_succ _
    · intro a ha
      exact hv (path, a) (mem_of_mapFind path a _ ha)

/-- C14 (as stated, at a chain of two nodes). `a.txt` has a chain of two nodes
in a well-formed state. After `initializeRepo` on a tree that holds `a.txt`, and
likewise after `loadFromDisk` of a history record that lists `a.txt`, the path
has a chain of one node. -/
theorem chain_shrinks_on_reinitialize :
    validPtrs twoVersionManager ∧ prevOlder twoVersionManager.heap ∧
      (chainOf twoVersionManager aTxt).length = 2 ∧
      (chainOf (initializeRepo (fun _ => sha256_abc) (fun _ => some abc) [⟨aTxt, true⟩]
        twoVersionManager).1 aTxt).length = 1 ∧
      (chainOf (loadFromDisk ⟨some [(aTxt, hexRender sha256_abc.val)], some []⟩
        twoVersionManager) aTxt).length = 1 := by
  refine ⟨by decide, by decide, by decide, by decide, by decide⟩

/-- C14 (amended). In a well-formed state, a tracked path is still tracked
after `addFileVersion`, `initializeRepo` and `loadFromDisk`. `addFileVersion`
never shortens its chain. `initializeRepo` and `loadFromDisk` leave its chain as
it was when they do not register the path, and give it a chain of one node when
they do. -/
theorem chains_after_operations (SHA256 : Str → Digest) (fs : Str → Option Str)
    (s : FileHistoryManager) (path : Str) (hv : validPtrs s) (hprev : prevOlder s.heap)
    (htr : (mapFind s.fileHistoryMap path).isSome) :
    (∀ filename disk, ∃ s' disk' report,
      addFileVersion SHA256 fs filename s disk = some (s', disk', report) ∧
        (mapFind s'.fileHistoryMap path).isSome ∧
        (chainOf s path).length ≤ (chainOf s' path).length) ∧
    (∀ listing,
      (mapFind (initializeRepo SHA256 fs listing s).1.fileHistoryMap path).isSome ∧
        (path ∉ (scanned fs listing).map Prod.fst →
          chainOf (initializeRepo SHA256 fs listing s).1 path = chainOf s path) ∧
        (path ∈ (scanned fs listing).map Prod.fst →
          (chainOf (initializeRepo SHA256 fs listing s).1 path).length = 1)) ∧
    (∀ disk,
      (mapFind (loadFromDisk disk s).fileHistoryMap path).isSome ∧
        (path ∉ loadedPaths disk → chainOf (loadFromDisk disk s) path = chainOf s path) ∧
        (path ∈ loadedPaths disk → (chainOf (loadFromDisk disk s) path).length = 1)) := by
  have hloop : ∀ (entries : Json) (t : FileHistoryManager),
      t.heap = (loadHistory entries s).heap →
      t.fileHistoryMap = (loadHistory entries s).fileHistoryMap →
      (mapFind t.fileHistoryMap path).isSome ∧
        (path ∉ entries.map Prod.fst → chainOf t path = chainOf s path) ∧
        (path ∈ entries.map Prod.fst → (chainOf t path).length = 1) := by
    intro entries t e1 e2
    obtain ⟨_, _, hpaths⟩ := loadHistory_chains entries s hv hprev
    obtain ⟨hnot, hin⟩ := hpaths path
    rw [chainOf_congr t _ e1 e2, e2]
    refine ⟨?_, fun h => (hnot h).2, ?_⟩
    · by_cases hmem : path ∈ entries.map Prod.fst
      · obtain ⟨p, hp, _⟩ := hin hmem
        rw [hp]
        rfl
      · rw [(hnot hmem).1]
        exact htr
    · intro h
      obtain ⟨p, _, hp⟩ := hin h
      rw [hp]
      rfl
  refine ⟨?_, ?_, ?_⟩
  · intro filename disk
    obtain ⟨s', disk', report, hadd, hcases⟩ :=
      addFileVersion_result SHA256 fs filename s disk hv
    refine ⟨s', disk', report, hadd, ?_⟩
    rcases hcases with h | ⟨hun, h⟩ | ⟨p, last, hp, hlast, h⟩
    · rw [h]
      exact ⟨htr, le_refl _⟩
    · have hne : path ≠ filename := by
        intro e
        rw [e, hun] at htr
        cases htr
      obtain ⟨_, _, _, hother⟩ := chains_alloc s filename
        (calculateFileHash SHA256 (readFileContent fs filename))
        (mapAssign s.hashMap (calculateFileHash SHA256 (readFileContent fs filename))
          (readFileContent fs filename)) hv hprev
      obtain ⟨h1, h2⟩ := hother path hne
      rw [h]
      constructor
      · show (mapFind (mapAssign s.fileHistoryMap filename s.heap.length) path).isSome
        rw [h1]
        exact htr
      · have h3 : chainOf (recordedNew s filename
            (calculateFileHash SHA256 (readFileContent fs filename))
            (readFileContent fs filename)) path = chainOf s path := h2
        rw [h3]
    · obtain ⟨hself, hother⟩ := chains_next s filename
        (calculateFileHash SHA256 (readFileContent fs filename))
        (readFileContent fs filename) p last hp hlast hv hprev
      rw [h]
      constructor
      · exact tracked_mapAssign _ _ _ _ htr
      · by_cases hne : path = filename
        · rw [hne, hself, List.length_cons]
          exact Nat.le_succ _
        · rw [(hother path hne).2]
  · intro listing
    obtain ⟨m1, m2⟩ := registerAll_memory SHA256 (scanned fs listing) (s, [], [])
    have hkeys : ((scanned fs listing).map
        (fun f => (f.1, calculateFileHash SHA256 f.2))).map Prod.fst
        = (scanned fs listing).map Prod.fst := by
      rw [List.map_map]
      rfl
    have hl := hloop ((scanned fs listing).map (fun f => (f.1, calculateFileHash SHA256 f.2)))
      (initializeRepo SHA256 fs listing s).1
      (by rw [initializeRepo_fst]; exact m1) (by rw [initializeRepo_fst]; exact m2)
    rw [hkeys] at hl
    exact hl
  · intro disk
    unfold loadedPaths loadFromDisk
    cases hf : disk.fileHistoryFile with
    | none =>
      simp only []
      exact ⟨htr, fun _ => trivial, fun h => by cases h⟩
    | some fj =>
      cases hh : disk.hashMapFile with
      | none =>
        simp only []
        exact ⟨htr, fun _ => trivial, fun h => by cases h⟩
      | some hj =>
        simp only []
        have hheap := loadHashMap_heap hj (loadHistory fj s)
        exact hloop fj _ hheap.1 hheap.2

theorem chains_after_operations_witness :
    validPtrs twoVersionManager ∧ prevOlder twoVersionManager.heap ∧
      (mapFind twoVersionManager.fileHistoryMap aTxt).isSome ∧
      ((∀ filename disk, ∃ s' disk' report,
        addFileVersion (fun _ => sha256_hello) (fun _ => some hello) filename
            twoVersionManager disk = some (s', disk', report) ∧
          (mapFind s'.fileHistoryMap aTxt).isSome ∧
          (chainOf twoVersionManager aTxt).length ≤ (chainOf s' aTxt).length) ∧
      (∀ listing,
        (mapFind (initializeRepo (fun _ => sha256_hello) (fun _ => some hello) listing
            twoVersionManager).1.fileHistoryMap aTxt).isSome ∧
          (aTxt ∉ (scanned (fun _ => some hello) listing).map Prod.fst →
            chainOf (initializeRepo (fun _ => sha256_hello) (fun _ => some hello) listing
              twoVersionManager).1 aTxt = chainOf twoVersionManager aTxt) ∧
          (aTxt ∈ (scanned (fun _ => some hello) listing).map Prod.fst →
            (chainOf (initializeRepo (fun _ => sha256_hello) (fun _ => some hello) listing
              twoVersionManager).1 aTxt).length = 1)) ∧
      (∀ disk,
        (mapFind (loadFromDisk disk twoVersionManager).fileHistoryMap aTxt).isSome ∧
          (aTxt ∉ loadedPaths disk →
            chainOf (loadFromDisk disk twoVersionManager) aTxt
              = chainOf twoVersionManager aTxt) ∧
          (aTxt ∈ loadedPaths disk →
            (chainOf (loadFromDisk disk twoVersionManager) aTxt).length = 1))) :=
  ⟨by decide, by decide, by decide,
    chains_after_operations (fun _ => sha256_hello) (fun _ => some hello) twoVersionManager
      aTxt (by decide) (by decide) (by decide)⟩

/-! ## `initializeRepo` on an empty manager -/

theorem mapFind_of_mem_nodup {V : Type} (k : Str) (v : V) :
    ∀ m : List (Str × V), keysNodup m → (k, v) ∈ m → mapFind m k = some v
  | [] => by
    intro _ h
    cases h
  | (k0, v0) :: m => by
    intro hnd h
    unfold keysNodup at hnd
    rw [List.map_cons, List.nodup_cons] at hnd
    rw [mapFind]
    rcases List.mem_cons.mp h with h | h
    · cases h
      rw [if_pos rfl]
    · have hk : k ∈ m.map Prod.fst := List.mem_map_of_mem Prod.fst h
      have hne : ¬ k0 = k := by
        intro e
        rw [e] at hnd
        exact hnd.1 hk
      rw [if_neg hne]
      exact mapFind_of_mem_nodup k v m hnd.2 h

/-- The content store that `initializeRepo` leaves: its keys are the old keys
and the digests of the registered files, and no key is added twice. -/
theorem registerAll_hashMap (SHA256 : Str → Digest) :
    ∀ (files : List (Str × Str)) (st : FileHistoryManager × Json × Json),
      (keysNodup st.1.hashMap → keysNodup (files.foldl (registerFile SHA256) st).1.hashMap) ∧
        ∀ d, d ∈ (files.foldl (registerFile SHA256) st).1.hashMap.map Prod.fst ↔
          d ∈ st.1.hashMap.map Prod.fst ∨ d ∈ files.map (fun f => calculateFileHash SHA256 f.2)
  | [], _ => by
    refine ⟨fun h => h, ?_⟩
    intro d
    simp
  | file :: files, st => by
    obtain ⟨ih1, ih2⟩ := registerAll_hashMap SHA256 files (registerFile SHA256 st file)
    rw [List.foldl_cons]
    constructor
    · intro h
      exact ih1 (keysNodup_mapAssign _ _ _ h)
    · intro d
      rw [ih2 d]
      have hk : d ∈ (registerFile SHA256 st file).1.hashMap.map Prod.fst ↔
          d = calculateFileHash SHA256 file.2 ∨ d ∈ st.1.hashMap.map Prod.fst :=
        mem_keys_mapAssign _ _ _ _
      rw [hk, List.map_cons, List.mem_cons]
      constructor
      · rintro ((h | h) | h)
        · exact Or.inr (Or.inl h)
        · exact Or.inl h
        · exact Or.inr (Or.inr h)
      · rintro (h | h | h)
        · exact Or.inl (Or.inr h)
        · exact Or.inl (Or.inl h)
        · exact Or.inr h

theorem scanned_keys (fs : Str → Option Str) (listing : List DirEntry) :
    (scanned fs listing).map Prod.fst = (listing.filter (isScanned fs)).map DirEntry.name := by
  unfold scanned
  rw [List.map_map]
  rfl

theorem scanned_keysNodup (fs : Str → Option Str) (listing : List DirEntry)
    (hnd : (listing.map DirEntry.name).Nodup) : keysNodup (scanned fs listing) := by
  unfold keysNodup
  rw [scanned_keys]
  exact List.Nodup.sublist ((List.filter_sublist listing).map DirEntry.name) hnd

theorem mem_scanned (fs : Str → Option Str) (listing : List DirEntry) (e : DirEntry)
    (he : e ∈ listing) (hs : isScanned fs e = true) :
    (e.name, readFileContent fs (dotSlash ++ e.name)) ∈ scanned fs listing := by
  unfold scanned
  exact List.mem_map.mpr ⟨e, List.mem_filter.mpr ⟨he, hs⟩, rfl⟩

theorem not_mem_scanned_keys (fs : Str → Option Str) (listing : List DirEntry) (e : DirEntry)
    (hnd : (listing.map DirEntry.name).Nodup) (he : e ∈ listing)
    (hs : isScanned fs e = false) : e.name ∉ (scanned fs listing).map Prod.fst := by
  rw [scanned_keys]
  intro h
  obtain ⟨e', he', hname⟩ := List.mem_map.mp h
  obtain ⟨hmem, hs'⟩ := List.mem_filter.mp he'
  have heq : e' = e := List.inj_on_of_nodup_map hnd hmem he hname
  rw [heq, hs] at hs'
  cases hs'

theorem isScanned_of_empty (fs : Str → Option Str) (e : DirEntry)
    (h : readFileContent fs (dotSlash ++ e.name) = []) : isScanned fs e = false := by
  simp [isScanned, h]

/-- C15 (as stated, at a path that is not valid UTF-8). The walk finds `a.txt`
and the Latin-1 path `café.txt`, both holding `hello`. Both paths get the same
digest and the content store has one entry for them, but there is no history
record with two entries: `dump(4)` throws on the key `café.txt` at line 180, and
no record is written. -/
theorem initializeRepo_latin1_path_no_record :
    (([⟨aTxt, true⟩, ⟨cafeTxt, true⟩] : List DirEntry).map DirEntry.name).Nodup ∧
      getLatestHash (initializeRepo (fun _ => sha256_hello) (fun _ => some hello)
          [⟨aTxt, true⟩, ⟨cafeTxt, true⟩] emptyManager).1 aTxt
        = some (calculateFileHash (fun _ => sha256_hello) hello) ∧
      getLatestHash (initializeRepo (fun _ => sha256_hello) (fun _ => some hello)
          [⟨aTxt, true⟩, ⟨cafeTxt, true⟩] emptyManager).1 cafeTxt
        = some (calculateFileHash (fun _ => sha256_hello) hello) ∧
      (initializeRepo (fun _ => sha256_hello) (fun _ => some hello)
          [⟨aTxt, true⟩, ⟨cafeTxt, true⟩] emptyManager).1.hashMap
        = [(hexRender sha256_hello.val, hello)] ∧
      (initializeRepo (fun _ => sha256_hello) (fun _ => some hello)
          [⟨aTxt, true⟩, ⟨cafeTxt, true⟩] emptyManager).2 = none := by
  refine ⟨by decide, by decide, by decide, by decide, by decide⟩

/-- C15 (amended). `initializeRepo` on an empty manager, for a walk whose
entries have distinct paths. Every registered file (a regular file outside
`./data/.vcs` with non-empty content) gets a chain of one node that holds the
digest of its content, and the history object that the loop builds maps its path
to this digest; an entry that is not registered, an empty file among them, is
not tracked; the content store has one entry for each digest of a registered
file, so files with the same content share one entry. The history object and
the content object are written as the two records when every registered path is
valid UTF-8; otherwise `dump(4)` throws and no record is written. -/
theorem initializeRepo_empty (SHA256 : Str → Digest) (fs : Str → Option Str)
    (listing : List DirEntry) (hnd : (listing.map DirEntry.name).Nodup) :
    (∀ e ∈ listing, isScanned fs e = true →
      ∃ p,
        mapFind (initializeRepo SHA256 fs listing emptyManager).1.fileHistoryMap e.name
            = some p ∧
          (initializeRepo SHA256 fs listing emptyManager).1.heap[p]?
            = some (newFileVersion
                (calculateFileHash SHA256 (readFileContent fs (dotSlash ++ e.name)))) ∧
          chainOf (initializeRepo SHA256 fs listing emptyManager).1 e.name = [p] ∧
          mapFind (initializeRepoLoop SHA256 fs listing (emptyManager, [], [])).2.1 e.name
            = some (calculateFileHash SHA256 (readFileContent fs (dotSlash ++ e.name)))) ∧
      (initializeRepo SHA256 fs listing emptyManager).2
        = (if (scanned fs listing).all (fun f => validUtf8 f.1) then
            some ⟨some (initializeRepoLoop SHA256 fs listing (emptyManager, [], [])).2.1,
                  some (initializeRepoLoop SHA256 fs listing (emptyManager, [], [])).2.2⟩
          else none) ∧
      (∀ e ∈ listing, isScanned fs e = false →
        mapFind (initializeRepo SHA256 fs listing emptyManager).1.fileHistoryMap e.name
          = none) ∧
      (∀ e ∈ listing, readFileContent fs (dotSlash ++ e.name) = [] →
        mapFind (initializeRepo SHA256 fs listing emptyManager).1.fileHistoryMap e.name
          = none) ∧
      keysNodup (initializeRepo SHA256 fs listing emptyManager).1.hashMap ∧
      (∀ d, d ∈ (initializeRepo SHA256 fs listing emptyManager).1.hashMap.map Prod.fst ↔
        ∃ e ∈ listing, isScanned fs e = true ∧
          calculateFileHash SHA256 (readFileContent fs (dotSlash ++ e.name)) = d) ∧
      (initializeRepo SHA256 fs listing emptyManager).1.hashMap.length
        = ((scanned fs listing).map (fun f => calculateFileHash SHA256 f.2)).dedup.length := by
  obtain ⟨m1, m2⟩ := registerAll_memory SHA256 (scanned fs listing) (emptyManager, [], [])
  obtain ⟨hv, _, _, hlatest, _⟩ := records_registerAll SHA256 (scanned fs listing)
    (emptyManager, [], [])
    (by intro e he; cases he) (by simp [jsonSorted]) (by simp [jsonSorted])
    (by intro p; rfl) (by intro p; rfl)
  obtain ⟨hknd, hkeys⟩ := registerAll_hashMap SHA256 (scanned fs listing) (emptyManager, [], [])
  have hentries : keysNodup ((scanned fs listing).map
      (fun f => (f.1, calculateFileHash SHA256 f.2))) := by
    have h := scanned_keysNodup fs listing hnd
    unfold keysNodup at h ⊢
    rw [List.map_map]
    exact h
  obtain ⟨_, _, hload⟩ := loadHistory_spec _ emptyManager hentries
  refine ⟨?_, initializeRepo_snd SHA256 fs listing emptyManager, ?_⟩
  · rw [initializeRepo_fst, initializeRepoLoop_eq]
    generalize (scanned fs listing).foldl (registerFile SHA256) (emptyManager, [], []) = st
      at m1 m2 hv hlatest
    intro e he hs
    have hmem : (e.name, calculateFileHash SHA256 (readFileContent fs (dotSlash ++ e.name)))
        ∈ (scanned fs listing).map (fun f => (f.1, calculateFileHash SHA256 f.2)) :=
      List.mem_map.mpr ⟨_, mem_scanned fs listing e he hs, rfl⟩
    have hfind := mapFind_of_mem_nodup _ _ _ hentries hmem
    have hl := hload e.name
    rw [hfind] at hl
    obtain ⟨p, hp1, hp2⟩ := hl
    rw [← m1] at hp2
    rw [← m2] at hp1
    refine ⟨p, hp1, hp2, ?_, ?_⟩
    · unfold chainOf
      rw [hp1]
      exact chainNodes_single _ _ _ hp2
    · rw [hlatest e.name]
      unfold latestOf
      rw [hp1, Option.some_bind, hp2]
      rfl
  rw [initializeRepo_fst]
  generalize (scanned fs listing).foldl (registerFile SHA256) (emptyManager, [], []) = st
    at m1 m2 hknd hkeys
  have hskip : ∀ e ∈ listing, isScanned fs e = false →
      mapFind st.1.fileHistoryMap e.name = none := by
    intro e he hs
    have hno := not_mem_scanned_keys fs listing e hnd he hs
    have hfind : mapFind ((scanned fs listing).map
        (fun f => (f.1, calculateFileHash SHA256 f.2))) e.name = none := by
      apply mapFind_eq_none_of_not_mem
      rw [List.map_map]
      exact hno
    have hl := hload e.name
    rw [hfind] at hl
    simp only [] at hl
    rw [m2, hl]
    rfl
  refine ⟨hskip, ?_, hknd (by simp [keysNodup, emptyManager]), ?_, ?_⟩
  · intro e he hempty
    exact hskip e he (isScanned_of_empty fs e hempty)
  · intro d
    rw [hkeys d]
    constructor
    · rintro (h | h)
      · cases h
      · obtain ⟨f, hf, hd⟩ := List.mem_map.mp h
        unfold scanned at hf
        obtain ⟨e, he, hfe⟩ := List.mem_map.mp hf
        obtain ⟨hmem, hs⟩ := List.mem_filter.mp he
        refine ⟨e, hmem, hs, ?_⟩
        rw [← hd, ← hfe]
    · rintro ⟨e, he, hs, hd⟩
      exact Or.inr (List.mem_map.mpr ⟨_, mem_scanned fs listing e he hs, hd⟩)
  · have hperm : (st.1.hashMap.map Prod.fst).Perm
        ((scanned fs listing).map (fun f => calculateFileHash SHA256 f.2)).dedup := by
      rw [List.perm_ext_iff_of_nodup (hknd (by simp [keysNodup, emptyManager]))
        (List.nodup_dedup _)]
      intro d
      rw [hkeys d, List.mem_dedup]
      constructor
      · rintro (h | h)
        · cases h
        · exact h
      · exact Or.inr
    rw [← hperm.length_eq, List.length_map]

theorem initializeRepo_empty_witness :
    (([⟨aTxt, true⟩, ⟨bTxt, true⟩] : List DirEntry).map DirEntry.name).Nodup ∧
      keysNodup (initializeRepo (fun _ => sha256_hello) (fun _ => some hello)
        [⟨aTxt, true⟩, ⟨bTxt, true⟩] emptyManager).1.hashMap ∧
      (initializeRepo (fun _ => sha256_hello) (fun _ => some hello)
          [⟨aTxt, true⟩, ⟨bTxt, true⟩] emptyManager).1.hashMap
        = [(hexRender sha256_hello.val, hello)] ∧
      (initializeRepo (fun _ => sha256_hello) (fun _ => some hello)
          [⟨aTxt, true⟩, ⟨bTxt, true⟩] emptyManager).2
        = some ⟨some [(aTxt, hexRender sha256_hello.val), (bTxt, hexRender sha256_hello.val)],
                some [(hexRender sha256_hello.val, base64_encode hello)]⟩ :=
  ⟨by decide,
    (initializeRepo_empty (fun _ => sha256_hello) (fun _ => some hello)
      [⟨aTxt, true⟩, ⟨bTxt, true⟩] (by decide)).2.2.2.2.1,
    by decide, by decide⟩

end Rift
